import Mathlib

/-! # go-looking-glass-api: a shallow embedding of `main.go`

Conventions of the embedding:

* A Go string is a Lean `String`, a sequence of Unicode code points (texts are taken
  to be well-formed UTF-8); `len(s)` is the UTF-8 byte length.
* A Go `error` is its message text.  A nil-able Go value (`map`, slice, `error`) is
  an `Option`, with `none` standing for `nil`.
* `int` is the 64-bit signed integer (`strconv.IntSize = 64`).  A `float64` is
  carried as its IEEE-754 bit pattern and is only produced by `strconv.ParseFloat`,
  which is a parameter of the embedding.
* Library functions are embedded from the Go standard library: `strings`,
  `strconv.Atoi`, `net.ParseIP` as of Go 1.17 and later (an IPv4 octet with a leading
  zero is rejected), `regexp.MatchString` and `encoding/json`.
* The operating system is a parameter: the outcome of each call on an `*exec.Cmd`
  and the lines read from its standard output.
-/

namespace LookingGlass

/-! ## Strings (package `strings`, `unicode`) -/

/-- Go `error`, by its message (`err.Error()`). -/
abbrev GoError := String

deriving instance DecidableEq for Except

/-- Go `len(s)`: the number of bytes of the UTF-8 encoding. -/
def len (s : String) : Nat := s.utf8ByteSize

/-- Go `unicode.IsSpace`. -/
def isSpace (c : Char) : Bool :=
  c = '\t' || c = '\n' || c = Char.ofNat 0x0B || c = Char.ofNat 0x0C || c = '\r' || c = ' '
    || c = Char.ofNat 0x85 || c = Char.ofNat 0xA0 || c = Char.ofNat 0x1680
    || (Char.ofNat 0x2000 ≤ c && c ≤ Char.ofNat 0x200A)
    || c = Char.ofNat 0x2028 || c = Char.ofNat 0x2029 || c = Char.ofNat 0x202F
    || c = Char.ofNat 0x205F || c = Char.ofNat 0x3000

/-- The loop of `strings.Fields`: `cur` is the field being read. -/
def fieldsLoop : List Char → List Char → List (List Char)
  | [], cur => if cur.isEmpty then [] else [cur]
  | c :: cs, cur =>
    if isSpace c then
      if cur.isEmpty then fieldsLoop cs [] else cur :: fieldsLoop cs []
    else fieldsLoop cs (cur ++ [c])

/-- Go `strings.Fields`: the maximal runs of non-space characters, in order. -/
def Fields (s : String) : List String := (fieldsLoop s.data []).map String.mk

/-- Go `strings.HasPrefix`. -/
def HasPrefix (s pre : String) : Bool := pre.data.isPrefixOf s.data

/-- Go `strings.HasSuffix`. -/
def HasSuffix (s suf : String) : Bool := suf.data.isSuffixOf s.data

/-- Go `strings.TrimPrefix`. -/
def TrimPrefix (s pre : String) : String :=
  if HasPrefix s pre then ⟨s.data.drop pre.data.length⟩ else s

/-- Go `strings.TrimSuffix`. -/
def TrimSuffix (s suf : String) : String :=
  if HasSuffix s suf then ⟨s.data.take (s.data.length - suf.data.length)⟩ else s

/-- Go `strings.TrimSpace`: leading and trailing `unicode.IsSpace` characters removed. -/
def TrimSpace (s : String) : String :=
  ⟨((s.data.dropWhile isSpace).reverse.dropWhile isSpace).reverse⟩

/-- Substring test on character lists. -/
def containsList : List Char → List Char → Bool
  | [], sub => sub.isEmpty
  | c :: cs, sub => sub.isPrefixOf (c :: cs) || containsList cs sub

/-- Go `strings.Contains`. -/
def Contains (s sub : String) : Bool := containsList s.data sub.data

/-- Go `strings.Count(s, sep)` for a separator of one character. -/
def Count (s : String) (sep : Char) : Nat := s.data.count sep

/-! ## `strconv.Atoi` -/

/-- ASCII decimal digit. -/
def isDigit (c : Char) : Bool := '0' ≤ c && c ≤ '9'

/-- The digit value `c - '0'`. -/
def digitVal (c : Char) : Nat := c.toNat - '0'.toNat

/-- The two kinds of `*strconv.NumError`. -/
inductive NumError
  | ErrSyntax
  | ErrRange
  deriving DecidableEq, Repr

/-- Go `strconv.IntSize` on 64-bit platforms. -/
def intSize : Nat := 64

/-- Largest `uint64`. -/
def maxUint64 : Nat := 2 ^ 64 - 1

/-- The digit loop of `strconv.ParseUint(s, 10, 64)`: `n` is the accumulator; the
result is the returned pair (value, error). -/
def parseUintLoop : List Char → Nat → Nat × Option NumError
  | [], n => (n, none)
  | c :: cs, n =>
    if isDigit c then
      if n ≥ maxUint64 / 10 + 1 then (maxUint64, some .ErrRange)
      else
        let n10 := n * 10
        let n1 := (n10 + digitVal c) % 2 ^ 64
        if n1 < n10 ∨ n1 > maxUint64 then (maxUint64, some .ErrRange)
        else parseUintLoop cs n1
    else (0, some .ErrSyntax)

/-- Go `strconv.ParseUint(s, 10, 64)`. -/
def ParseUint (s : List Char) : Nat × Option NumError :=
  if s.isEmpty then (0, some .ErrSyntax) else parseUintLoop s 0

/-- Go `strconv.ParseInt(s, 10, 0)`. -/
def ParseInt (s : List Char) : Int × Option NumError :=
  match s with
  | [] => (0, some .ErrSyntax)
  | c :: cs =>
    let neg := decide (c = '-')
    let body := if c = '+' ∨ c = '-' then cs else c :: cs
    let (un, err) := ParseUint body
    if err = some .ErrSyntax then (0, err)
    else
      let cutoff : Nat := 2 ^ (intSize - 1)
      if !neg && decide (un ≥ cutoff) then ((cutoff : Int) - 1, some .ErrRange)
      else if neg && decide (un > cutoff) then (-(cutoff : Int), some .ErrRange)
      else (if neg then -(un : Int) else (un : Int), none)

/-- The digit loop of the fast path of `strconv.Atoi`. -/
def atoiFastLoop : List Char → Nat → Option Nat
  | [], n => some n
  | c :: cs, n => if isDigit c then atoiFastLoop cs (n * 10 + digitVal c) else none

/-- Go `strconv.Atoi`, as the returned pair (value, error). -/
def Atoi (s : String) : Int × Option NumError :=
  let sLen := len s
  if 0 < sLen ∧ sLen < 19 then
    match s.data with
    | [] => (0, some .ErrSyntax)
    | c :: cs =>
      let signed := decide (c = '-' ∨ c = '+')
      let body := if signed then cs else c :: cs
      if signed && body.isEmpty then (0, some .ErrSyntax)
      else
        match atoiFastLoop body 0 with
        | none => (0, some .ErrSyntax)
        | some n => (if c = '-' then -(n : Int) else (n : Int), none)
  else ParseInt s.data

/-- Source `atoi`: `n, _ := strconv.Atoi(s); return n`. -/
def atoi (s : String) : Int := (Atoi s).1

/-! ## Target validation -/

/-- The scanning loop of `netip.parseIPv4Fields`, which `net.ParseIP` runs on a dotted
text (Go 1.22 and later; the reader of Go 1.17 to 1.21 accepts the same texts, and
both reject an octet with a leading zero): `prev` is `s[i-1]` (`none` when `i == 0`),
`cs.isEmpty` is `i == len(s)-1`; the result is `err == nil`. -/
def parseIPv4Loop : List Char → Option Char → Nat → Nat → Nat → Bool
  | [], _, _, pos, _ => !decide (pos < 3)
  | c :: cs, prev, val, pos, digLen =>
    if isDigit c then
      if digLen = 1 ∧ val = 0 then false
      else
        let val1 := val * 10 + digitVal c
        if val1 > 255 then false
        else parseIPv4Loop cs (some c) val1 pos (digLen + 1)
    else if c = '.' then
      if prev = none ∨ cs.isEmpty ∨ prev = some '.' then false
      else if pos = 3 then false
      else parseIPv4Loop cs (some c) 0 (pos + 1) 0
    else false

/-- Go `netip.parseIPv4`, as success or failure. -/
def parseIPv4 (s : String) : Bool := parseIPv4Loop s.data none 0 0 0

/-- Go `net.ParseIP(s) != nil`.  The text is handed to the IPv4 reader when its first
`.`, `:` or `%` is a dot and to the IPv6 reader when it is a colon; the IPv6 reader
(success with an empty zone) is the parameter `parseIPv6`. -/
def ParseIP (parseIPv6 : String → Bool) (s : String) : Bool :=
  match s.data.find? (fun c => c = '.' || c = ':' || c = '%') with
  | none => false
  | some c => if c = '.' then parseIPv4 s else if c = ':' then parseIPv6 s else false

/-- Source `isValidIPv4`. -/
def isValidIPv4 (parseIPv6 : String → Bool) (ip : String) : Bool :=
  ParseIP parseIPv6 ip && decide (Count ip ':' < 1)

/-- ASCII letter, the class `[a-zA-Z]`. -/
def isAlpha (c : Char) : Bool := ('a' ≤ c && c ≤ 'z') || ('A' ≤ c && c ≤ 'Z')

/-- The character classes the domain pattern distinguishes. -/
inductive CharClass
  | alpha
  | digit
  | hyphen
  | dot
  | other
  deriving DecidableEq, Repr

/-- The class of a character. -/
def classify (c : Char) : CharClass :=
  if isAlpha c then .alpha
  else if isDigit c then .digit
  else if c = '-' then .hyphen
  else if c = '.' then .dot
  else .other

/-- The class `[a-zA-Z0-9-]`. -/
def rxLDH : RegularExpression CharClass :=
  .plus (.plus (.char .alpha) (.char .digit)) (.char .hyphen)

/-- The group `([a-zA-Z0-9-]+\.)`. -/
def rxLabelDot : RegularExpression CharClass :=
  .comp (.comp rxLDH (.star rxLDH)) (.char .dot)

/-- The tail `[a-zA-Z]{2,}`. -/
def rxTLD : RegularExpression CharClass :=
  .comp (.comp (.char .alpha) (.char .alpha)) (.star (.char .alpha))

/-- The pattern `^([a-zA-Z0-9-]+\.)+[a-zA-Z]{2,}$` of `isValidDomain`, over character
classes; `^` and `$` anchor the match to the whole text (Go has no multi-line flag
here), `X+` is `X X*` and `X{2,}` is `X X X*`. -/
def domainRegex : RegularExpression CharClass :=
  .comp (.comp rxLabelDot (.star rxLabelDot)) rxTLD

/-- Go `regexp.MatchString` for the anchored pattern above. -/
def MatchString (re : RegularExpression CharClass) (s : String) : Bool :=
  re.rmatch (s.data.map classify)

/-- Source `isValidDomain`. -/
def isValidDomain (domain : String) : Bool :=
  MatchString domainRegex domain && decide (len domain ≤ 253)

/-- Source `validateTarget`. -/
def validateTarget (parseIPv6 : String → Bool) (target : String) : Bool :=
  target != "" && (isValidIPv4 parseIPv6 target || isValidDomain target)

/-! ## Events and line parsers -/

/-- A Go `float64`, by its IEEE-754 bit pattern. -/
structure Float64 where
  bits : Nat
  deriving DecidableEq, Repr

/-- The dynamic values stored in an event map. -/
inductive Value
  | str (s : String)
  | int (n : Int)
  | float (x : Float64)
  deriving DecidableEq, Repr

/-- An event: the `map[string]interface{}` literal, key by key in source order. -/
abbrev Event := List (String × Value)

/-- The result pair of a line parser: an error, or a map that may be `nil`. -/
abbrev ParseResult := Except GoError (Option Event)

/-- Source `parseMTRRaw`. -/
def parseMTRRaw (line : String) : ParseResult :=
  match Fields line with
  | [] => .ok none
  | p0 :: rest =>
    if p0 = "x" then
      match rest with
      | p1 :: p2 :: _ =>
        .ok (some [("type", .str "cycle"), ("cycle", .int (atoi p1)), ("cycle_id", .int (atoi p2))])
      | _ => .ok none
    else if p0 = "h" then
      match rest with
      | p1 :: p2 :: _ =>
        .ok (some [("type", .str "hop"), ("hop", .int (atoi p1)), ("ip", .str p2)])
      | _ => .ok none
    else if p0 = "p" then
      match rest with
      | p1 :: p2 :: p3 :: _ =>
        .ok (some [("type", .str "ping"), ("hop", .int (atoi p1)), ("rtt", .int (atoi p2)),
          ("cycle_id", .int (atoi p3))])
      | _ => .ok none
    else .ok none

/-- One iteration of the field loop of `parsePing` on the pair (`seq`, `timeMs`). -/
def pingScanStep (st : String × String) (f : String) : String × String :=
  if HasPrefix f "icmp_seq=" then (TrimPrefix f "icmp_seq=", st.2)
  else if HasPrefix f "seq=" then (TrimPrefix f "seq=", st.2)
  else if HasPrefix f "time=" then
    (st.1, TrimSpace (TrimSuffix (TrimPrefix f "time=") " ms"))
  else st

/-- The field loop of `parsePing`, from `seq = ""` and `timeMs = ""`. -/
def pingScan (fields : List String) : String × String :=
  fields.foldl pingScanStep ("", "")

/-- Source `parsePing`; `ParseFloat` is `strconv.ParseFloat(·, 64)`. -/
def parsePing (ParseFloat : String → Except GoError Float64) (line : String) : ParseResult :=
  if Contains line "bytes from" then
    let st := pingScan (Fields line)
    if st.1 != "" && st.2 != "" then
      match ParseFloat st.2 with
      | .error err => .error err
      | .ok rtt =>
        .ok (some [("type", .str "ping"), ("seq", .int (atoi st.1)), ("rtt_ms", .float rtt),
          ("rawLine", .str line)])
    else .ok none
  else .ok none

/-! ## Running the command -/

/-- What the operating system does with one `*exec.Cmd`: the error (or `nil`) of each
call, and the lines `bufio.Scanner` yields from standard output. -/
structure Cmd where
  stdoutPipeErr : Option GoError
  stderrPipeErr : Option GoError
  startErr : Option GoError
  stdoutLines : List String
  waitErr : Option GoError

/-- Go `append(s, x)` on a slice that may be `nil`. -/
def appendSlice {α : Type} (s : Option (List α)) (x : α) : Option (List α) :=
  some (s.getD [] ++ [x])

/-- The elements of a slice (`nil` has none). -/
def sliceElems {α : Type} (s : Option (List α)) : List α := s.getD []

/-- The body of the scan loop of `runCommandBuffered`. -/
def bufferedStep (parser : String → ParseResult) (results : Option (List Event))
    (line : String) : Option (List Event) :=
  match parser line with
  | .ok (some out) => appendSlice results out
  | _ => results

/-- Source `runCommandBuffered`; `results` starts as the nil slice. -/
def runCommandBuffered (cmd : Cmd) (parser : String → ParseResult) :
    Except GoError (Option (List Event)) :=
  match cmd.stdoutPipeErr with
  | some err => .error err
  | none =>
    match cmd.startErr with
    | some err => .error err
    | none =>
      let results := cmd.stdoutLines.foldl (bufferedStep parser) none
      match cmd.waitErr with
      | some err => .error err
      | none => .ok results

/-- The life of the child process as far as `streamCommand` drives it. -/
structure ProcState where
  started : Bool
  readers : Bool
  waited : Bool
  deriving DecidableEq, Repr

/-- Source `streamCommand`, on the process state: the returned error and the state
reached.  `wIsFlusher` is the outcome of `w.(http.Flusher)`; `readers` records that
the two reader goroutines were launched (what they write is concurrent and is not
part of this state). -/
def streamCommand (wIsFlusher : Bool) (cmd : Cmd) (st : ProcState) :
    Option GoError × ProcState :=
  match cmd.stdoutPipeErr with
  | some err => (some err, st)
  | none =>
    match cmd.stderrPipeErr with
    | some err => (some err, st)
    | none =>
      match cmd.startErr with
      | some err => (some err, st)
      | none =>
        let st1 := { st with started := true }
        if !wIsFlusher then (some "streaming unsupported", st1)
        else (cmd.waitErr, { st1 with readers := true, waited := true })

/-! ## JSON output and HTTP handlers -/

/-- The lower-case hexadecimal digit of a number below 16. -/
def hexDigit (n : Nat) : Char := "0123456789abcdef".data.getD n '0'

/-- What `encoding/json` writes for one character of a string (HTML escaping on, as
in `json.NewEncoder`). -/
def jsonEscape (c : Char) : List Char :=
  if c = '\\' ∨ c = '"' then ['\\', c]
  else if c = Char.ofNat 8 then ['\\', 'b']
  else if c = Char.ofNat 12 then ['\\', 'f']
  else if c = '\n' then ['\\', 'n']
  else if c = '\r' then ['\\', 'r']
  else if c = '\t' then ['\\', 't']
  else if c.toNat < 0x20 ∨ c = '<' ∨ c = '>' ∨ c = '&' then
    ['\\', 'u', '0', '0', hexDigit (c.toNat / 16), hexDigit (c.toNat % 16)]
  else if c = Char.ofNat 0x2028 ∨ c = Char.ofNat 0x2029 then
    ['\\', 'u', '2', '0', '2', hexDigit (c.toNat % 16)]
  else [c]

/-- The JSON string literal `encoding/json` writes for a Go string. -/
def jsonQuote (s : String) : String :=
  ⟨'"' :: (s.data.map jsonEscape).flatten ++ ['"']⟩

/-- What `json.NewEncoder(w).Encode(map[string]string{"error": msg})` writes. -/
def encodeErrorMap (msg : String) : String :=
  "\x7b\"error\":" ++ jsonQuote msg ++ "\x7d\n"

/-- What `json.NewEncoder(w).Encode(results)` writes for a slice of events; `marshal`
is `json.Marshal` on one event map.  A nil slice is written as `null`; when an
element cannot be marshalled nothing is written. -/
def encodeResults (marshal : Event → Option String) (results : Option (List Event)) :
    Option String :=
  match results with
  | none => some "null\n"
  | some evs => (evs.mapM marshal).map fun l => "[" ++ ",".intercalate l ++ "]\n"

/-- Source: ``fmt.Sprintf(`{"error":"%v"}`, err)``. -/
def errorJSON (err : GoError) : String := "\x7b\"error\":\"" ++ err ++ "\"\x7d"

/-- The `http.ResponseWriter` as the handler leaves it: the header map, the status of
the first `WriteHeader`, the bytes written, and whether the writer is an
`http.Flusher`. -/
structure ResponseWriter where
  header : List (String × String)
  status : Option Nat
  body : String
  isFlusher : Bool
  deriving DecidableEq, Repr

/-- Go `w.Header().Set(k, v)`. -/
def setHeader (w : ResponseWriter) (k v : String) : ResponseWriter :=
  { w with header := (k, v) :: w.header.filter fun kv => kv.1 != k }

/-- Go `w.WriteHeader(code)`: only the first call counts. -/
def WriteHeader (w : ResponseWriter) (code : Nat) : ResponseWriter :=
  if w.status.isSome then w else { w with status := some code }

/-- Go `w.Write(b)`: an implicit `WriteHeader(200)` when none came before. -/
def Write (w : ResponseWriter) (b : String) : ResponseWriter :=
  { WriteHeader w 200 with body := w.body ++ b }

/-- Go `http.Error(w, error, code)`. -/
def httpError (w : ResponseWriter) (error : String) (code : Nat) : ResponseWriter :=
  Write
    (WriteHeader
      (setHeader (setHeader w "Content-Type" "text/plain; charset=utf-8")
        "X-Content-Type-Options" "nosniff")
      code)
    (error ++ "\n")

/-- The code `mtrHandler` and `pingHandler` share, line for line: `parser` is the line
parser of the handler and `cmd` what the operating system does with its command.
`target` and `streaming` are the two query parameters; `streamed` is what the reader
goroutines of `streamCommand` have written to `w` when it returns. -/
def handle (parseIPv6 : String → Bool) (parser : String → ParseResult)
    (marshal : Event → Option String) (target streaming : String) (cmd : Cmd)
    (streamed : String) (w : ResponseWriter) : ResponseWriter :=
  if !validateTarget parseIPv6 target then
    Write (WriteHeader w 400) (encodeErrorMap "Invalid target")
  else if streaming = "true" then
    let w1 := setHeader (setHeader (setHeader w "Content-Type" "application/x-ndjson")
      "Cache-Control" "no-cache") "Transfer-Encoding" "chunked"
    let r := streamCommand w1.isFlusher cmd ⟨false, false, false⟩
    let w2 := if r.2.readers && streamed != "" then Write w1 streamed else w1
    match r.1 with
    | some err => httpError w2 (errorJSON err) 500
    | none => w2
  else
    match runCommandBuffered cmd parser with
    | .error err => httpError w (errorJSON err) 500
    | .ok results =>
      let w1 := setHeader w "Content-Type" "application/json"
      match encodeResults marshal results with
      | some b => Write w1 b
      | none => w1

/-- Source `mtrHandler`; `exec` is what the operating system does with a command
line. -/
def mtrHandler (parseIPv6 : String → Bool) (marshal : Event → Option String)
    (target streaming : String) (exec : List String → Cmd) (streamed : String)
    (w : ResponseWriter) : ResponseWriter :=
  handle parseIPv6 parseMTRRaw marshal target streaming
    (exec ["mtr", "--raw", "--no-dns", "--report-cycles", "10", target]) streamed w

/-- Source `pingHandler`; `ParseFloat` is `strconv.ParseFloat(·, 64)` and `exec` is
what the operating system does with a command line. -/
def pingHandler (parseIPv6 : String → Bool) (ParseFloat : String → Except GoError Float64)
    (marshal : Event → Option String) (target streaming : String)
    (exec : List String → Cmd) (streamed : String) (w : ResponseWriter) : ResponseWriter :=
  handle parseIPv6 (parsePing ParseFloat) marshal target streaming
    (exec ["ping", "-c", "10", target]) streamed w

/-! ### Reading a JSON error object back -/

/-- JSON white space. -/
def isJsonSpace (c : Char) : Bool := c = ' ' || c = '\t' || c = '\n' || c = '\r'

/-- The value of a hexadecimal digit. -/
def hexVal (c : Char) : Option Nat :=
  if '0' ≤ c ∧ c ≤ '9' then some (c.toNat - '0'.toNat)
  else if 'a' ≤ c ∧ c ≤ 'f' then some (c.toNat - 'a'.toNat + 10)
  else if 'A' ≤ c ∧ c ≤ 'F' then some (c.toNat - 'A'.toNat + 10)
  else none

/-- Reads a JSON string (RFC 8259) after its opening quote: the decoded characters so
far are `acc`; the result is the decoded string and the text after the closing quote,
or `none` when the text is not a JSON string.  A `\u` escape is decoded as the code
point it names. -/
def readJsonString : List Char → List Char → Option (List Char × List Char)
  | [], _ => none
  | '"' :: rest, acc => some (acc, rest)
  | '\\' :: 'u' :: h1 :: h2 :: h3 :: h4 :: rest, acc =>
    match hexVal h1, hexVal h2, hexVal h3, hexVal h4 with
    | some a, some b, some c, some d =>
      readJsonString rest (acc ++ [Char.ofNat (((a * 16 + b) * 16 + c) * 16 + d)])
    | _, _, _, _ => none
  | '\\' :: e :: rest, acc =>
    if e = '"' ∨ e = '\\' ∨ e = '/' then readJsonString rest (acc ++ [e])
    else if e = 'b' then readJsonString rest (acc ++ [Char.ofNat 8])
    else if e = 'f' then readJsonString rest (acc ++ [Char.ofNat 12])
    else if e = 'n' then readJsonString rest (acc ++ ['\n'])
    else if e = 'r' then readJsonString rest (acc ++ ['\r'])
    else if e = 't' then readJsonString rest (acc ++ ['\t'])
    else none
  | c :: rest, acc =>
    if c = '\\' ∨ c.toNat < 0x20 then none else readJsonString rest (acc ++ [c])

/-- Reads a JSON object text with the single member `error` whose value is a string,
white space allowed around every token, and returns that string; `none` when the
text is not of that form. -/
def errorObjectMessage (body : String) : Option String :=
  match body.data.dropWhile isJsonSpace with
  | '\x7b' :: s1 =>
    match s1.dropWhile isJsonSpace with
    | '"' :: s2 =>
      match readJsonString s2 [] with
      | some (key, s3) =>
        if key = "error".data then
          match s3.dropWhile isJsonSpace with
          | ':' :: s4 =>
            match s4.dropWhile isJsonSpace with
            | '"' :: s5 =>
              match readJsonString s5 [] with
              | some (val, s6) =>
                match s6.dropWhile isJsonSpace with
                | '\x7d' :: s7 => if (s7.dropWhile isJsonSpace).isEmpty then some ⟨val⟩ else none
                | _ => none
              | none => none
            | _ => none
          | _ => none
        else none
      | none => none
    | _ => none
  | _ => none

/-! ## Specification-side definitions -/

/-- The events a parser yields for a list of lines: one for each line with a non-nil
map and a nil error, in line order. -/
def parsedEvents (parser : String → ParseResult) (lines : List String) : List Event :=
  lines.filterMap fun line =>
    match parser line with
    | .ok (some out) => some out
    | _ => none

/-- The number a digit string denotes, continuing from `n`. -/
def decValueFrom (n : Nat) (ds : List Char) : Nat :=
  ds.foldl (fun n c => n * 10 + digitVal c) n

/-- The integer a decimal token denotes: an optional sign followed by one or more
ASCII digits; `none` when the token is not of that form. -/
def decimalInt (t : String) : Option Int :=
  match t.data with
  | [] => none
  | c :: cs =>
    if c = '-' then
      if !cs.isEmpty && cs.all isDigit then some (-(decValueFrom 0 cs : Int)) else none
    else if c = '+' then
      if !cs.isEmpty && cs.all isDigit then some (decValueFrom 0 cs : Int) else none
    else if (c :: cs).all isDigit then some (decValueFrom 0 (c :: cs) : Int) else none

/-- The token lists of a recognized sub-format: first token `x` or `h` with at least
three tokens, or first token `p` with at least four. -/
def recognized : List String → Bool
  | p0 :: _ :: _ :: rest => p0 = "x" || p0 = "h" || (p0 = "p" && !rest.isEmpty)
  | _ => false

/-- A sequence token: one that starts with `icmp_seq=` or with `seq=`. -/
def isSeqToken (f : String) : Bool := HasPrefix f "icmp_seq=" || HasPrefix f "seq="

/-- The text after the `icmp_seq=` or `seq=` of a sequence token. -/
def seqValueOf (f : String) : String :=
  if HasPrefix f "icmp_seq=" then TrimPrefix f "icmp_seq=" else TrimPrefix f "seq="

/-- A time token: one that starts with `time=`. -/
def isTimeToken (f : String) : Bool := HasPrefix f "time="

/-- The sequence value found in a token list: that of the last sequence token, and
the empty string when there is none. -/
def seqFound (tokens : List String) : String :=
  match (tokens.filter isSeqToken).getLast? with
  | some f => seqValueOf f
  | none => ""

/-- The time value found in a token list: the text after `time=` of the last time
token, and the empty string when there is none. -/
def timeFound (tokens : List String) : String :=
  match (tokens.filter isTimeToken).getLast? with
  | some f => TrimPrefix f "time="
  | none => ""

/-- A string without white space. -/
def noSpace (s : String) : Prop := ∀ c ∈ s.data, isSpace c = false

/-- A reader standing in for `strconv.ParseFloat` at the lines of the examples: it
returns the `float64` nearest to 11.3 for the text `11.3` and a syntax error for any
other text. -/
def exampleParseFloat (s : String) : Except GoError Float64 :=
  if s = "11.3" then .ok ⟨0x402699999999999A⟩
  else .error ("strconv.ParseFloat: parsing \"" ++ s ++ "\": invalid syntax")

/-- The number a plain decimal text denotes: one or more digits, optionally followed
by a point and one or more digits.  The result `(m, k)` stands for `m / 10 ^ k`;
`none` when the text is not of that form. -/
def decimalNumber (t : String) : Option (Nat × Nat) :=
  let ip := t.data.takeWhile isDigit
  match t.data.dropWhile isDigit with
  | [] => if ip.isEmpty then none else some (decValueFrom 0 ip, 0)
  | c :: fp =>
    if c = '.' && !ip.isEmpty && !fp.isEmpty && fp.all isDigit then
      some (decValueFrom 0 (ip ++ fp), fp.length)
    else none

/-- The integer nearest to `a / b`, a tie going to the even one. -/
def roundHalfEven (a b : Nat) : Nat :=
  let d := a / b
  let r := a % b
  if 2 * r < b then d else if b < 2 * r then d + 1 else if d % 2 = 0 then d else d + 1

/-- The binary logarithm rounded down (0 for 0 and 1), by halving at most `fuel`
times. -/
def log2Floor : Nat → Nat → Nat
  | 0, _ => 0
  | fuel + 1, n => if n < 2 then 0 else log2Floor fuel (n / 2) + 1

/-- The binary exponent `e` of the unit in the last place of the `float64` nearest to
`m / 10 ^ k` (for `m > 0`): the number lies in `[2 ^ (e + 52), 2 ^ (e + 53))`, and
`e` is -1074 for the numbers below the normal range. -/
def float64Exponent (m k : Nat) : Int :=
  let den := 10 ^ k
  let s := if den ≤ m then 0 else log2Floor den den - log2Floor m m + 1
  let n := m * 2 ^ s / den
  max ((log2Floor n n : Int) - s - 52) (-1074)

/-- The `float64` that `strconv.ParseFloat` documents for the decimal number
`m / 10 ^ k`: the nearest one, rounded half to even (IEEE 754), by its bit pattern;
`none` when the number rounds beyond the largest finite `float64` (the library then
reports a range error). -/
def float64OfDecimal (m k : Nat) : Option Float64 :=
  if m = 0 then some ⟨0⟩
  else
    let e := float64Exponent m k
    let M :=
      if 0 ≤ e then roundHalfEven m (10 ^ k * 2 ^ e.toNat)
      else roundHalfEven (m * 2 ^ (-e).toNat) (10 ^ k)
    let bits := (e + 1074).toNat * 2 ^ 52 + M
    if bits < 0x7FF0000000000000 then some ⟨bits⟩ else none

/-- The documented behaviour of `strconv.ParseFloat(·, 64)` on plain decimal numbers:
the nearest `float64` without error, and an error when the number is out of range. -/
def ParseFloatOnDecimals (pf : String → Except GoError Float64) : Prop :=
  ∀ (T : String) (m k : Nat), decimalNumber T = some (m, k) →
    (∀ x, float64OfDecimal m k = some x → pf T = .ok x) ∧
    (float64OfDecimal m k = none → ∃ err, pf T = .error err)

/-- A float reader with the documented behaviour of `strconv.ParseFloat` on plain
decimal numbers.  Any other text is answered with a syntax error here; the library
reads more forms (exponents, hexadecimal floats, infinities, NaN), which the lines of
the examples do not contain. -/
def decimalParseFloat (s : String) : Except GoError Float64 :=
  match decimalNumber s with
  | some (m, k) =>
    match float64OfDecimal m k with
    | some x => .ok x
    | none => .error ("strconv.ParseFloat: parsing \"" ++ s ++ "\": value out of range")
  | none => .error ("strconv.ParseFloat: parsing \"" ++ s ++ "\": invalid syntax")

/-- The exact value of a finite `float64`, as a rational number. -/
def float64Value (x : Float64) : ℚ :=
  if x.bits / 2 ^ 52 = 0 then ((x.bits % 2 ^ 52 : Nat) : ℚ) * 2 ^ (-1074 : Int)
  else ((2 ^ 52 + x.bits % 2 ^ 52 : Nat) : ℚ) * 2 ^ (((x.bits / 2 ^ 52 : Nat) : Int) - 1075)

/-- The class `[a-zA-Z0-9-]` on characters. -/
def isLDH (c : Char) : Bool := isAlpha c || isDigit c || c = '-'

/-- A domain-shaped text: one or more non-empty labels of letters, digits and
hyphens, each followed by a dot, then a final label of two or more letters. -/
def DomainShape (s : List Char) : Prop :=
  ∃ (labels : List (List Char)) (final : List Char),
    labels ≠ [] ∧ (∀ l ∈ labels, l ≠ [] ∧ ∀ c ∈ l, isLDH c = true) ∧
    2 ≤ final.length ∧ (∀ c ∈ final, isAlpha c = true) ∧
    s = (labels.map fun l => l ++ ['.']).flatten ++ final

/-- The classes of `[a-zA-Z0-9-]`. -/
def ldhClass (a : CharClass) : Prop := a = .alpha ∨ a = .digit ∨ a = .hyphen

/-- A decimal octet: one or more ASCII digits denoting a number from 0 to 255. -/
def decimalOctet (f : List Char) : Bool :=
  !f.isEmpty && f.all isDigit && decide (decValueFrom 0 f ≤ 255)

/-- A decimal octet written without leading zero: `0`, or digits not starting with 0. -/
def canonOctet (f : List Char) : Bool :=
  decimalOctet f && (decide (f.length ≤ 1) || f.head? != some '0')

/-- Four dot-separated fields, each satisfying `p`. -/
def DottedQuad (p : List Char → Bool) (s : List Char) : Prop :=
  ∃ a b c d, p a = true ∧ p b = true ∧ p c = true ∧ p d = true ∧
    s = a ++ '.' :: (b ++ '.' :: (c ++ '.' :: d))

/-- Reads `k + 1` dot-separated fields from the left: each field is the longest run of
digits and must satisfy `p`; the last one must end the text. -/
def dottedFrom (p : List Char → Bool) : Nat → List Char → Bool
  | 0, s => p (s.takeWhile isDigit) && (s.dropWhile isDigit).isEmpty
  | k + 1, s =>
    p (s.takeWhile isDigit) &&
      match s.dropWhile isDigit with
      | c :: rest => c = '.' && dottedFrom p k rest
      | [] => false

/-- The targets as the specification words them: a non-empty text that is either four
dot-separated decimal octets, each from 0 to 255, without a colon, or a domain-shaped
text of at most 253 characters. -/
def ClaimedTarget (s : String) : Prop :=
  s ≠ "" ∧ ((DottedQuad decimalOctet s.data ∧ ':' ∉ s.data) ∨
    (s.length ≤ 253 ∧ DomainShape s.data))

/-! # Theorems -/

/-! ## The buffered collector -/

theorem sliceElems_bufferedStep (parser : String → ParseResult) (results : Option (List Event))
    (line : String) :
    sliceElems (bufferedStep parser results line)
      = sliceElems results ++ parsedEvents parser [line] := by
  unfold bufferedStep parsedEvents
  rcases h : parser line with e | (_ | out) <;> simp [sliceElems, appendSlice, h]

theorem sliceElems_scan (parser : String → ParseResult) (lines : List String) :
    ∀ results : Option (List Event),
      sliceElems (lines.foldl (bufferedStep parser) results)
        = sliceElems results ++ parsedEvents parser lines := by
  induction lines with
  | nil => intro results; simp [parsedEvents]
  | cons l ls ih =>
    intro results
    rw [List.foldl_cons, ih, sliceElems_bufferedStep]
    simp [parsedEvents, List.filterMap_cons]
    cases h : (match parser l with | .ok (some out) => some out | _ => none) <;> simp

/-- C5: `runCommandBuffered` is all-or-nothing.  When `cmd.Wait` reports an error the
result is an error and no slice of events is returned, whatever the lines were; when
the pipe, the start and the wait all succeed the result is the slice holding exactly
the events the parser yielded for the lines with a non-nil map and nil error, in the
order the lines were read. -/
theorem runCommandBuffered_all_or_nothing (cmd : Cmd) (parser : String → ParseResult) :
    (∀ e, cmd.waitErr = some e →
        (∃ e1, runCommandBuffered cmd parser = .error e1) ∧
        ∀ results, runCommandBuffered cmd parser ≠ .ok results) ∧
    (cmd.stdoutPipeErr = none → cmd.startErr = none → cmd.waitErr = none →
        ∃ results, runCommandBuffered cmd parser = .ok results ∧
          sliceElems results = parsedEvents parser cmd.stdoutLines) := by
  refine ⟨?_, ?_⟩
  · intro e he
    unfold runCommandBuffered
    rcases cmd.stdoutPipeErr with _ | e0 <;> rcases cmd.startErr with _ | e1 <;> simp [he]
  · intro h1 h2 h3
    refine ⟨cmd.stdoutLines.foldl (bufferedStep parser) none, ?_, ?_⟩
    · simp [runCommandBuffered, h1, h2, h3]
    · rw [sliceElems_scan]; simp [sliceElems]

/-- C5, at a run of five valid route-trace lines: with exit status 1 the result is
that error, and with a clean exit it is the five events in order. -/
theorem runCommandBuffered_all_or_nothing_witness :
    ((∃ e1, runCommandBuffered
        ⟨none, none, none, ["h 1 10.0.0.1", "h 2 10.0.0.2", "p 1 900 0", "p 2 1250 0", "x 0 0"],
          some "exit status 1"⟩ parseMTRRaw = .error e1) ∧
      ∀ results, runCommandBuffered
        ⟨none, none, none, ["h 1 10.0.0.1", "h 2 10.0.0.2", "p 1 900 0", "p 2 1250 0", "x 0 0"],
          some "exit status 1"⟩ parseMTRRaw ≠ .ok results) ∧
    ∃ results, runCommandBuffered
        ⟨none, none, none, ["h 1 10.0.0.1", "h 2 10.0.0.2", "p 1 900 0", "p 2 1250 0", "x 0 0"],
          none⟩ parseMTRRaw = .ok results ∧
      sliceElems results = parsedEvents parseMTRRaw
        ["h 1 10.0.0.1", "h 2 10.0.0.2", "p 1 900 0", "p 2 1250 0", "x 0 0"] :=
  ⟨(runCommandBuffered_all_or_nothing
      ⟨none, none, none, ["h 1 10.0.0.1", "h 2 10.0.0.2", "p 1 900 0", "p 2 1250 0", "x 0 0"],
        some "exit status 1"⟩ parseMTRRaw).1 "exit status 1" rfl,
   (runCommandBuffered_all_or_nothing
      ⟨none, none, none, ["h 1 10.0.0.1", "h 2 10.0.0.2", "p 1 900 0", "p 2 1250 0", "x 0 0"],
        none⟩ parseMTRRaw).2 rfl rfl rfl⟩

/-! ## The streaming multiplexer -/

/-- C7, the code at the failing input: a command whose pipes and start succeed, and a
writer that is not an `http.Flusher`.  `streamCommand` returns the unsupported-sink
error with the process already started (and never waited on). -/
theorem streamCommand_unsupported_sink_after_start :
    streamCommand false ⟨none, none, none, [], none⟩ ⟨false, false, false⟩
      = (some "streaming unsupported", ⟨true, false, false⟩) := by
  decide

/-- On the unsupported-sink path the process is started whenever the pipes and the
start succeeded. -/
theorem streamCommand_unsupported_started (cmd : Cmd) (st : ProcState)
    (h1 : cmd.stdoutPipeErr = none) (h2 : cmd.stderrPipeErr = none) (h3 : cmd.startErr = none) :
    streamCommand false cmd st = (some "streaming unsupported", { st with started := true }) := by
  simp [streamCommand, h1, h2, h3]

/-! ## Decimal tokens and `atoi` -/

theorem isDigit_iff (c : Char) : isDigit c = true ↔ 48 ≤ c.toNat ∧ c.toNat ≤ 57 := by
  simp only [isDigit, Bool.and_eq_true, decide_eq_true_eq, Char.le_def]
  rfl

theorem digitVal_le (c : Char) (h : isDigit c = true) : digitVal c ≤ 9 := by
  rw [isDigit_iff] at h
  have : digitVal c = c.toNat - 48 := rfl
  omega

theorem decValueFrom_ge (ds : List Char) : ∀ n, n ≤ decValueFrom n ds := by
  induction ds with
  | nil => intro n; simp [decValueFrom]
  | cons c cs ih =>
    intro n
    have := ih (n * 10 + digitVal c)
    simp only [decValueFrom, List.foldl_cons] at this ⊢
    omega

theorem atoiFastLoop_digits (ds : List Char) (h : ds.all isDigit = true) :
    ∀ n, atoiFastLoop ds n = some (decValueFrom n ds) := by
  induction ds with
  | nil => intro n; simp [atoiFastLoop, decValueFrom]
  | cons c cs ih =>
    intro n
    simp only [List.all_cons, Bool.and_eq_true] at h
    simp [atoiFastLoop, h.1, ih h.2, decValueFrom]

theorem parseUintLoop_digits (ds : List Char) (h : ds.all isDigit = true) :
    ∀ n, decValueFrom n ds ≤ maxUint64 → parseUintLoop ds n = (decValueFrom n ds, none) := by
  induction ds with
  | nil => intro n _; simp [parseUintLoop, decValueFrom]
  | cons c cs ih =>
    intro n hb
    simp only [List.all_cons, Bool.and_eq_true] at h
    have hd := digitVal_le c h.1
    have hstep : decValueFrom n (c :: cs) = decValueFrom (n * 10 + digitVal c) cs := rfl
    rw [hstep] at hb ⊢
    have hge := decValueFrom_ge cs (n * 10 + digitVal c)
    have hmax : maxUint64 = 18446744073709551615 := by decide
    rw [hmax] at hb
    have hm : (n * 10 + digitVal c) % 2 ^ 64 = n * 10 + digitVal c := by
      apply Nat.mod_eq_of_lt; omega
    have hih := ih h.2 (n * 10 + digitVal c) (by rw [hmax]; exact hb)
    simp only [parseUintLoop, h.1, if_true, hm, hmax]
    rw [if_neg (by omega), if_neg (by omega)]
    exact hih

theorem isDigit_ne_minus (c : Char) (h : isDigit c = true) : c ≠ '-' := by
  intro hc; subst hc; revert h; decide

theorem isDigit_ne_plus (c : Char) (h : isDigit c = true) : c ≠ '+' := by
  intro hc; subst hc; revert h; decide

theorem Atoi_fst_eq_atoi (s : String) : (Atoi s).1 = atoi s := rfl

/-- A decimal token within the `int` range is converted to the integer it denotes. -/
theorem atoi_decimalInt (t : String) (n : Int) (h : decimalInt t = some n)
    (hlo : -(2 : Int) ^ 63 ≤ n) (hhi : n < (2 : Int) ^ 63) : Atoi t = (n, none) := by
  obtain ⟨data⟩ := t
  unfold decimalInt at h
  unfold Atoi
  cases data with
  | nil => simp at h
  | cons c cs =>
    simp only at h ⊢
    have hcut : (2 : Nat) ^ (intSize - 1) = 9223372036854775808 := by decide
    have hmax : maxUint64 = 18446744073709551615 := by decide
    by_cases hm : c = '-'
    · subst hm
      simp only [if_true] at h
      split at h
      · rename_i hds
        simp only [Bool.and_eq_true, Bool.not_eq_true', List.isEmpty_eq_false] at hds
        injection h with h
        subst h
        have hv : decValueFrom 0 cs ≤ 9223372036854775808 := by
          norm_num at hlo; omega
        have hfast := atoiFastLoop_digits cs hds.2 0
        have hslow := parseUintLoop_digits cs hds.2 0 (by rw [hmax]; omega)
        have hne : cs ≠ [] := by
          intro h0; simp [h0] at hds
        split
        · simp [hfast, hne]
        · simp [ParseInt, ParseUint, hne, hslow, hcut]
          omega
      · simp at h
    · simp only [hm, if_false] at h
      by_cases hp : c = '+'
      · subst hp
        simp only [if_true] at h
        split at h
        · rename_i hds
          simp only [Bool.and_eq_true, Bool.not_eq_true', List.isEmpty_eq_false] at hds
          injection h with h
          subst h
          have hv : decValueFrom 0 cs < 9223372036854775808 := by
            norm_num at hhi; omega
          have hfast := atoiFastLoop_digits cs hds.2 0
          have hslow := parseUintLoop_digits cs hds.2 0 (by rw [hmax]; omega)
          have hne : cs ≠ [] := by
            intro h0; simp [h0] at hds
          split
          · simp [hfast, hne]
          · simp [ParseInt, ParseUint, hne, hslow, hcut]
            omega
        · simp at h
      · simp only [hp, if_false] at h
        split at h
        · rename_i hds
          injection h with h
          subst h
          have hv : decValueFrom 0 (c :: cs) < 9223372036854775808 := by
            norm_num at hhi; omega
          have hfast := atoiFastLoop_digits (c :: cs) hds 0
          have hslow := parseUintLoop_digits (c :: cs) hds 0 (by rw [hmax]; omega)
          split
          · simp [hfast, hm, hp]
          · simp [ParseInt, ParseUint, hslow, hcut, hm, hp]
            omega
        · simp at h

theorem decValueFrom_lt_pow (ds : List Char) (h : ds.all isDigit = true) :
    ∀ n, decValueFrom n ds < (n + 1) * 10 ^ ds.length := by
  induction ds with
  | nil => intro n; simp [decValueFrom]
  | cons c cs ih =>
    intro n
    simp only [List.all_cons, Bool.and_eq_true] at h
    have hd := digitVal_le c h.1
    have h1 := ih h.2 (n * 10 + digitVal c)
    have hstep : decValueFrom n (c :: cs) = decValueFrom (n * 10 + digitVal c) cs := rfl
    rw [hstep, List.length_cons, pow_succ]
    calc decValueFrom (n * 10 + digitVal c) cs
        < (n * 10 + digitVal c + 1) * 10 ^ cs.length := h1
      _ ≤ ((n + 1) * 10) * 10 ^ cs.length := Nat.mul_le_mul_right _ (by omega)
      _ = (n + 1) * (10 ^ cs.length * 10) := by ring

theorem parseUintLoop_overflow (ds : List Char) (h : ds.all isDigit = true) :
    ∀ n, n ≤ maxUint64 → maxUint64 < decValueFrom n ds →
      parseUintLoop ds n = (maxUint64, some .ErrRange) := by
  have hmax : maxUint64 = 18446744073709551615 := by decide
  induction ds with
  | nil =>
    intro n h1 h2
    simp [decValueFrom] at h2
    omega
  | cons c cs ih =>
    intro n hn hb
    simp only [List.all_cons, Bool.and_eq_true] at h
    have hd := digitVal_le c h.1
    have hstep : decValueFrom n (c :: cs) = decValueFrom (n * 10 + digitVal c) cs := rfl
    rw [hstep] at hb
    unfold parseUintLoop
    rw [if_pos h.1]
    by_cases hcut : n ≥ maxUint64 / 10 + 1
    · rw [if_pos hcut]
    · rw [if_neg hcut]
      simp only
      rw [hmax] at hcut hn
      by_cases hwrap : n * 10 + digitVal c < 2 ^ 64
      · have hm : (n * 10 + digitVal c) % 2 ^ 64 = n * 10 + digitVal c :=
          Nat.mod_eq_of_lt hwrap
        rw [hm, if_neg (by rw [hmax]; omega)]
        exact ih h.2 (n * 10 + digitVal c) (by rw [hmax]; omega) hb
      · have hm : (n * 10 + digitVal c) % 2 ^ 64 = n * 10 + digitVal c - 2 ^ 64 := by
          rw [Nat.mod_eq_sub_mod (by omega)]
          apply Nat.mod_eq_of_lt
          omega
        rw [hm, if_pos (Or.inl (by omega))]

theorem parseUintLoop_nondigit (ds : List Char) (h : ds.all isDigit = false) :
    ∀ n, parseUintLoop ds n = (0, some .ErrSyntax) ∨
      parseUintLoop ds n = (maxUint64, some .ErrRange) := by
  induction ds with
  | nil => simp at h
  | cons c cs ih =>
    intro n
    unfold parseUintLoop
    by_cases hc : isDigit c = true
    · rw [if_pos hc]
      have hcs : cs.all isDigit = false := by
        simp only [List.all_cons, hc, Bool.true_and] at h
        exact h
      by_cases hcut : n ≥ maxUint64 / 10 + 1
      · rw [if_pos hcut]; exact Or.inr rfl
      · rw [if_neg hcut]
        simp only
        split
        · exact Or.inr rfl
        · exact ih hcs _
    · rw [if_neg hc]; exact Or.inl rfl

theorem atoiFastLoop_nondigit (ds : List Char) (h : ds.all isDigit = false) :
    ∀ n, atoiFastLoop ds n = none := by
  induction ds with
  | nil => simp at h
  | cons c cs ih =>
    intro n
    unfold atoiFastLoop
    by_cases hc : isDigit c = true
    · rw [if_pos hc]
      apply ih
      simp only [List.all_cons, hc, Bool.true_and] at h
      exact h
    · rw [if_neg hc]

/-- What `strconv.ParseInt` returns for a body of digits after the sign. -/
theorem ParseInt_signed_digits (c : Char) (cs body : List Char)
    (hbody : body = if c = '+' ∨ c = '-' then cs else c :: cs)
    (hne : body ≠ []) (hd : body.all isDigit = true) :
    ParseInt (c :: cs) =
      if c = '-' then
        if decValueFrom 0 body ≤ 2 ^ 63 then (-(decValueFrom 0 body : Int), none)
        else (-(2 : Int) ^ 63, some .ErrRange)
      else
        if decValueFrom 0 body < 2 ^ 63 then ((decValueFrom 0 body : Int), none)
        else ((2 : Int) ^ 63 - 1, some .ErrRange) := by
  have hcut : (2 : Nat) ^ (intSize - 1) = 9223372036854775808 := by decide
  have hmax : maxUint64 = 18446744073709551615 := by decide
  unfold ParseInt
  simp only
  rw [← hbody]
  have hPU : ParseUint body = parseUintLoop body 0 := by
    unfold ParseUint
    have : body.isEmpty = false := by simpa using hne
    simp [this]
  rw [hPU]
  have h63 : (2 : Nat) ^ 63 = 9223372036854775808 := by norm_num
  have h63i : (2 : Int) ^ 63 = 9223372036854775808 := by norm_num
  rw [h63, h63i]
  by_cases hbig : decValueFrom 0 body ≤ maxUint64
  · rw [parseUintLoop_digits body hd 0 hbig]
    rw [hmax] at hbig
    generalize decValueFrom 0 body = v at hbig ⊢
    by_cases hm : c = '-'
    · subst hm
      by_cases hv : v ≤ 9223372036854775808
      · have h1 : ¬ (9223372036854775808 < v) := by omega
        simp [hv, hcut, h1]
      · have h1 : 9223372036854775808 < v := by omega
        simp [hv, hcut, h1]
    · by_cases hv : v < 9223372036854775808
      · have h1 : ¬ (9223372036854775808 ≤ v) := by omega
        simp [hv, hcut, hm, h1]
      · have h1 : 9223372036854775808 ≤ v := by omega
        simp [hv, hcut, hm, h1]
  · have hov := parseUintLoop_overflow body hd 0 (by omega) (by omega)
    rw [hov]
    rw [hmax] at hbig
    generalize decValueFrom 0 body = v at hbig ⊢
    by_cases hm : c = '-'
    · subst hm
      have hv : ¬ v ≤ 9223372036854775808 := by omega
      simp [hv, hcut, hmax]
    · have hv : ¬ v < 9223372036854775808 := by omega
      simp [hv, hcut, hmax, hm]

theorem utf8ByteSize_go_ge (l : List Char) : l.length ≤ String.utf8ByteSize.go l := by
  induction l with
  | nil => simp [String.utf8ByteSize.go]
  | cons c cs ih =>
    simp only [String.utf8ByteSize.go, List.length_cons]
    have := Char.utf8Size_pos c
    omega

/-- The byte length is at least the number of characters. -/
theorem length_le_len (s : String) : s.length ≤ len s := utf8ByteSize_go_ge s.data

theorem decimalInt_form (t : String) (n : Int) (h : decimalInt t = some n) :
    ∃ c cs body, t.data = c :: cs ∧ body = (if c = '+' ∨ c = '-' then cs else c :: cs) ∧
      body ≠ [] ∧ body.all isDigit = true ∧
      n = if c = '-' then -(decValueFrom 0 body : Int) else (decValueFrom 0 body : Int) := by
  unfold decimalInt at h
  cases hd : t.data with
  | nil => rw [hd] at h; simp at h
  | cons c cs =>
    rw [hd] at h
    simp only at h
    by_cases hm : c = '-'
    · subst hm
      rw [if_pos rfl] at h
      split at h
      · rename_i hds
        simp only [Bool.and_eq_true, Bool.not_eq_true', List.isEmpty_eq_false] at hds
        injection h with h
        exact ⟨'-', cs, cs, rfl, by simp, hds.1, hds.2, by simp [h]⟩
      · simp at h
    · rw [if_neg hm] at h
      by_cases hp : c = '+'
      · subst hp
        rw [if_pos rfl] at h
        split at h
        · rename_i hds
          simp only [Bool.and_eq_true, Bool.not_eq_true', List.isEmpty_eq_false] at hds
          injection h with h
          exact ⟨'+', cs, cs, rfl, by simp, hds.1, hds.2, by simp [h]⟩
        · simp at h
      · rw [if_neg hp] at h
        split at h
        · rename_i hds
          injection h with h
          exact ⟨c, cs, c :: cs, rfl, by simp [hm, hp], by simp, hds, by simp [hm, h]⟩
        · simp at h

theorem digits_length_of_large (body : List Char) (hd : body.all isDigit = true)
    (hv : 2 ^ 63 ≤ decValueFrom 0 body) : 19 ≤ body.length := by
  by_contra hlen
  have h1 := decValueFrom_lt_pow body hd 0
  have h2 : 10 ^ body.length ≤ 10 ^ 18 := Nat.pow_le_pow_right (by norm_num) (by omega)
  have h3 : (10 : Nat) ^ 18 < 2 ^ 63 := by norm_num
  omega

theorem Atoi_slow (t : String) (h : 19 ≤ t.data.length) : Atoi t = ParseInt t.data := by
  unfold Atoi
  have := length_le_len t
  have hl : t.length = t.data.length := rfl
  simp only
  rw [if_neg (by omega)]

/-- A decimal integer token above the `int` range is converted to the largest `int`,
with a range error. -/
theorem Atoi_decimalInt_high (t : String) (n : Int) (h : decimalInt t = some n)
    (hn : (2 : Int) ^ 63 ≤ n) : Atoi t = ((2 : Int) ^ 63 - 1, some .ErrRange) := by
  obtain ⟨c, cs, body, hdata, hbody, hne, hd, hval⟩ := decimalInt_form t n h
  have h63 : (2 : Int) ^ 63 = 9223372036854775808 := by norm_num
  have h63n : (2 : Nat) ^ 63 = 9223372036854775808 := by norm_num
  rw [h63] at hn
  by_cases hm : c = '-'
  · rw [if_pos hm] at hval
    omega
  · rw [if_neg hm] at hval
    have hv : 2 ^ 63 ≤ decValueFrom 0 body := by rw [h63n]; omega
    have hlen := digits_length_of_large body hd hv
    have hlen2 : body.length ≤ t.data.length := by
      rw [hdata, hbody]; split <;> simp
    rw [Atoi_slow t (by omega), hdata, ParseInt_signed_digits c cs body hbody hne hd,
      if_neg hm, if_neg (by omega)]

/-- A decimal integer token below the `int` range is converted to the smallest `int`,
with a range error. -/
theorem Atoi_decimalInt_low (t : String) (n : Int) (h : decimalInt t = some n)
    (hn : n < -(2 : Int) ^ 63) : Atoi t = (-(2 : Int) ^ 63, some .ErrRange) := by
  obtain ⟨c, cs, body, hdata, hbody, hne, hd, hval⟩ := decimalInt_form t n h
  have h63 : (2 : Int) ^ 63 = 9223372036854775808 := by norm_num
  have h63n : (2 : Nat) ^ 63 = 9223372036854775808 := by norm_num
  rw [h63] at hn
  by_cases hm : c = '-'
  · rw [if_pos hm] at hval
    have hv : 2 ^ 63 ≤ decValueFrom 0 body := by rw [h63n]; omega
    have hlen := digits_length_of_large body hd hv
    have hlen2 : body.length ≤ t.data.length := by
      rw [hdata, hbody]; split <;> simp
    rw [Atoi_slow t (by omega), hdata, ParseInt_signed_digits c cs body hbody hne hd,
      if_pos hm, if_neg (by omega)]
  · rw [if_neg hm] at hval
    omega

theorem ParseInt_range_sign (c : Char) (cs : List Char)
    (h : (ParseInt (c :: cs)).2 = some .ErrRange) :
    (ParseInt (c :: cs)).1 = if c = '-' then -(2 : Int) ^ 63 else (2 : Int) ^ 63 - 1 := by
  have hcut : (2 : Nat) ^ (intSize - 1) = 9223372036854775808 := by decide
  have h63i : (2 : Int) ^ 63 = 9223372036854775808 := by norm_num
  rw [h63i]
  unfold ParseInt at h ⊢
  simp only at h ⊢
  generalize ParseUint (if c = '+' ∨ c = '-' then cs else c :: cs) = r at h ⊢
  obtain ⟨un, err⟩ := r
  simp only at h ⊢
  by_cases he : err = some .ErrSyntax
  · rw [if_pos he] at h
    rw [he] at h
    simp at h
  · rw [if_neg he] at h ⊢
    simp only [hcut] at h ⊢
    by_cases hm : c = '-'
    · subst hm
      by_cases h1 : 9223372036854775808 < un
      · simp [h1]
      · simp [h1] at h
    · by_cases h1 : 9223372036854775808 ≤ un
      · simp [hm, h1]
      · simp [hm, h1] at h

/-- On a range error `atoi` returns the smallest `int` for a token that starts with a
minus sign and the largest `int` for any other token. -/
theorem atoi_of_ErrRange_sign (t : String) (h : (Atoi t).2 = some .ErrRange) :
    atoi t = if HasPrefix t "-" then -(2 : Int) ^ 63 else (2 : Int) ^ 63 - 1 := by
  unfold atoi
  unfold Atoi at h ⊢
  simp only at h ⊢
  by_cases hlen : 0 < len t ∧ len t < 19
  · rw [if_pos hlen] at h
    exfalso
    cases hd : t.data with
    | nil => rw [hd] at h; simp at h
    | cons c cs =>
      rw [hd] at h
      simp only at h
      generalize (if decide (c = '-' ∨ c = '+') = true then cs else c :: cs) = body at h
      by_cases hb : (decide (c = '-' ∨ c = '+') && body.isEmpty) = true
      · rw [if_pos hb] at h; simp at h
      · rw [if_neg hb] at h
        cases hf : atoiFastLoop body 0 with
        | none => rw [hf] at h; simp at h
        | some n => rw [hf] at h; simp at h
  · rw [if_neg hlen] at h ⊢
    cases hd : t.data with
    | nil => rw [hd] at h; simp [ParseInt] at h
    | cons c cs =>
      rw [hd] at h
      rw [ParseInt_range_sign c cs h]
      have hp : HasPrefix t "-" = decide (c = '-') := by
        unfold HasPrefix
        rw [hd]
        have : "-".data = ['-'] := rfl
        rw [this]
        by_cases hm : c = '-'
        · subst hm; simp [List.isPrefixOf]
        · have hm2 : ¬ ('-' = c) := fun h => hm h.symm
          simp [List.isPrefixOf, hm, hm2]
      rw [hp]
      by_cases hm : c = '-'
      · simp [hm]
      · simp [hm]

theorem body_of_not_decimalInt (t : String) (c : Char) (cs : List Char)
    (hd : t.data = c :: cs) (h : decimalInt t = none) :
    (if c = '+' ∨ c = '-' then cs else c :: cs) = [] ∨
      (if c = '+' ∨ c = '-' then cs else c :: cs).all isDigit = false := by
  unfold decimalInt at h
  rw [hd] at h
  simp only at h
  by_cases hm : c = '-'
  · subst hm
    simp only [if_true, or_true] at h ⊢
    by_cases hne : cs = []
    · exact Or.inl hne
    · right
      by_contra hall
      have hall2 : cs.all isDigit = true := by simpa using hall
      have he : cs.isEmpty = false := by simpa using hne
      rw [he, hall2] at h
      simp at h
  · simp only [hm, if_false] at h
    by_cases hp : c = '+'
    · subst hp
      simp only [if_true, true_or] at h ⊢
      by_cases hne : cs = []
      · exact Or.inl hne
      · right
        by_contra hall
        have hall2 : cs.all isDigit = true := by simpa using hall
        have he : cs.isEmpty = false := by simpa using hne
        rw [he, hall2] at h
        simp at h
    · simp only [hp, if_false] at h
      rw [if_neg (by simp [hm, hp])]
      right
      by_contra hall
      have hall2 : (c :: cs).all isDigit = true := by simpa using hall
      rw [if_pos hall2] at h
      simp at h

theorem ParseInt_err_of_body (c : Char) (cs : List Char)
    (hb : (if c = '+' ∨ c = '-' then cs else c :: cs) = [] ∨
      (if c = '+' ∨ c = '-' then cs else c :: cs).all isDigit = false) :
    (ParseInt (c :: cs)).2 ≠ none := by
  have hcut : (2 : Nat) ^ (intSize - 1) = 9223372036854775808 := by decide
  have hmax : maxUint64 = 18446744073709551615 := by decide
  unfold ParseInt
  simp only
  generalize (if c = '+' ∨ c = '-' then cs else c :: cs) = body at hb ⊢
  unfold ParseUint
  rcases hb with hb | hb
  · subst hb; simp
  · have hne : body.isEmpty = false := by
      cases body with
      | nil => simp at hb
      | cons a as => rfl
    rw [hne]
    simp only [Bool.false_eq_true, if_false]
    rcases parseUintLoop_nondigit body hb 0 with h1 | h1
    · rw [h1]; simp
    · rw [h1]
      simp only [hcut, hmax]
      by_cases hm : c = '-'
      · simp [hm]
      · simp [hm]

/-- A token that is not a decimal integer is never converted without an error. -/
theorem Atoi_of_not_decimalInt (t : String) (h : decimalInt t = none) :
    (Atoi t).2 ≠ none := by
  unfold Atoi
  simp only
  cases hd : t.data with
  | nil =>
    have : ¬ (0 < len t ∧ len t < 19) := by
      have : len t = 0 := by
        unfold len String.utf8ByteSize
        obtain ⟨l⟩ := t
        simp only at hd
        subst hd
        rfl
      omega
    rw [if_neg this]
    simp [ParseInt]
  | cons c cs =>
    have hb := body_of_not_decimalInt t c cs hd h
    by_cases hlen : 0 < len t ∧ len t < 19
    · rw [if_pos hlen]
      simp only
      by_cases hs : c = '-' ∨ c = '+'
      · have hs2 : c = '+' ∨ c = '-' := hs.symm
        rw [if_pos hs2] at hb
        simp only [hs, decide_True, if_true, Bool.true_and]
        rcases hb with hb | hb
        · subst hb; simp
        · have hne : cs.isEmpty = false := by
            cases cs with
            | nil => simp at hb
            | cons a as => rfl
          rw [hne, atoiFastLoop_nondigit cs hb 0]
          simp
      · have hs2 : ¬ (c = '+' ∨ c = '-') := fun h => hs h.symm
        rw [if_neg hs2] at hb
        simp only [hs, decide_False, if_false, Bool.false_and]
        rcases hb with hb | hb
        · simp at hb
        · simp [atoiFastLoop_nondigit (c :: cs) hb 0]
    · rw [if_neg hlen]
      exact ParseInt_err_of_body c cs hb

theorem ParseInt_cases (s : List Char) :
    ParseInt s = (0, some .ErrSyntax) ∨ ParseInt s = ((2 : Int) ^ 63 - 1, some .ErrRange) ∨
      ParseInt s = (-(2 : Int) ^ 63, some .ErrRange) ∨ (ParseInt s).2 = none := by
  have hcut : (2 : Nat) ^ (intSize - 1) = 9223372036854775808 := by decide
  unfold ParseInt
  cases s with
  | nil => simp
  | cons c cs =>
    simp only
    rcases hpu : ParseUint (if c = '+' ∨ c = '-' then cs else c :: cs) with ⟨un, err⟩
    simp only
    by_cases he : err = some .ErrSyntax
    · simp [he]
    · simp only [he, if_false, hcut]
      split
      · right; left; norm_num
      · split
        · right; right; left; norm_num
        · right; right; right; rfl

theorem Atoi_cases (s : String) :
    Atoi s = (0, some .ErrSyntax) ∨ Atoi s = ((2 : Int) ^ 63 - 1, some .ErrRange) ∨
      Atoi s = (-(2 : Int) ^ 63, some .ErrRange) ∨ (Atoi s).2 = none := by
  unfold Atoi
  simp only
  by_cases hlen : 0 < len s ∧ len s < 19
  · rw [if_pos hlen]
    cases s.data with
    | nil => left; rfl
    | cons c cs =>
      simp only
      generalize (if decide (c = '-' ∨ c = '+') = true then cs else c :: cs) = body
      by_cases hb : (decide (c = '-' ∨ c = '+') && body.isEmpty) = true
      · rw [if_pos hb]; left; rfl
      · rw [if_neg hb]
        cases atoiFastLoop body 0 with
        | none => left; rfl
        | some n => right; right; right; rfl
  · rw [if_neg hlen]
    exact ParseInt_cases s.data

/-- When `strconv.Atoi` reports a syntax error, `atoi` returns 0. -/
theorem atoi_of_ErrSyntax (s : String) (h : (Atoi s).2 = some .ErrSyntax) : atoi s = 0 := by
  rcases Atoi_cases s with h1 | h1 | h1 | h1
  · simp [atoi, h1]
  · rw [h1] at h; simp at h
  · rw [h1] at h; simp at h
  · rw [h1] at h; simp at h

/-- When `strconv.Atoi` reports a range error, `atoi` returns the nearest bound. -/
theorem atoi_of_ErrRange (s : String) (h : (Atoi s).2 = some .ErrRange) :
    atoi s = (2 : Int) ^ 63 - 1 ∨ atoi s = -(2 : Int) ^ 63 := by
  rcases Atoi_cases s with h1 | h1 | h1 | h1
  · rw [h1] at h; simp at h
  · left; simp [atoi, h1]
  · right; simp [atoi, h1]
  · rw [h1] at h; simp at h

/-! ## The route-trace parser -/

/-- C2 as stated fails: in `h 99999999999999999999 10.0.0.1` the first token is `h`,
there are three tokens and the numeric token is a decimal integer, but the hop index
of the event is 9223372036854775807, not the integer in the line. -/
theorem parseMTRRaw_overflow_counterexample :
    Fields "h 99999999999999999999 10.0.0.1" = ["h", "99999999999999999999", "10.0.0.1"] ∧
    decimalInt "99999999999999999999" = some 99999999999999999999 ∧
    parseMTRRaw "h 99999999999999999999 10.0.0.1" = .ok (some
      [("type", .str "hop"), ("hop", .int 9223372036854775807), ("ip", .str "10.0.0.1")]) := by
  decide

/-- C2 amended: `parseMTRRaw` never returns an error, and its result is decided by the
whitespace tokens of the line: `x a b ...` gives the cycle event of `a`, `b`;
`h a b ...` the hop event with hop index `a` and address `b`; `p a b c ...` the
probe-result event with hop `a`, round-trip time `b`, cycle id `c`; every other line
gives no event.  Numeric tokens are converted by `atoi`, which on a decimal integer
token within the `int` range (from -2^63 to 2^63 - 1) is the integer the token
denotes. -/
theorem parseMTRRaw_by_tokens (line : String) :
    (∀ e, parseMTRRaw line ≠ .error e) ∧
    (∀ p1 p2 rest, Fields line = "x" :: p1 :: p2 :: rest →
      parseMTRRaw line = .ok (some
        [("type", .str "cycle"), ("cycle", .int (atoi p1)), ("cycle_id", .int (atoi p2))])) ∧
    (∀ p1 p2 rest, Fields line = "h" :: p1 :: p2 :: rest →
      parseMTRRaw line = .ok (some
        [("type", .str "hop"), ("hop", .int (atoi p1)), ("ip", .str p2)])) ∧
    (∀ p1 p2 p3 rest, Fields line = "p" :: p1 :: p2 :: p3 :: rest →
      parseMTRRaw line = .ok (some
        [("type", .str "ping"), ("hop", .int (atoi p1)), ("rtt", .int (atoi p2)),
          ("cycle_id", .int (atoi p3))])) ∧
    (recognized (Fields line) = false → parseMTRRaw line = .ok none) ∧
    (∀ (t : String) (n : Int), decimalInt t = some n → -(2 : Int) ^ 63 ≤ n → n < (2 : Int) ^ 63 →
      atoi t = n) := by
  refine ⟨?_, ?_, ?_, ?_, ?_, ?_⟩
  · intro e
    unfold parseMTRRaw
    rcases Fields line with _ | ⟨p0, _ | ⟨p1, _ | ⟨p2, _ | ⟨p3, rest⟩⟩⟩⟩ <;> simp <;>
      split_ifs <;> simp
  · intro p1 p2 rest h
    simp [parseMTRRaw, h]
  · intro p1 p2 rest h
    simp [parseMTRRaw, h]
  · intro p1 p2 p3 rest h
    simp [parseMTRRaw, h]
  · unfold parseMTRRaw recognized
    rcases Fields line with _ | ⟨p0, _ | ⟨p1, _ | ⟨p2, _ | ⟨p3, rest⟩⟩⟩⟩ <;> simp <;>
      intros <;> simp_all
  · intro t n h hlo hhi
    rw [← Atoi_fst_eq_atoi, atoi_decimalInt t n h hlo hhi]

/-- C2 amended, at the three lines of the specification: `h 3 10.0.0.1`,
`p 3 1250 7` and `q unknown`. -/
theorem parseMTRRaw_by_tokens_witness :
    parseMTRRaw "h 3 10.0.0.1" = .ok (some
        [("type", .str "hop"), ("hop", .int (atoi "3")), ("ip", .str "10.0.0.1")]) ∧
    atoi "3" = 3 ∧
    parseMTRRaw "p 3 1250 7" = .ok (some
        [("type", .str "ping"), ("hop", .int (atoi "3")), ("rtt", .int (atoi "1250")),
          ("cycle_id", .int (atoi "7"))]) ∧
    atoi "1250" = 1250 ∧ atoi "7" = 7 ∧
    parseMTRRaw "q unknown" = .ok none :=
  ⟨(parseMTRRaw_by_tokens "h 3 10.0.0.1").2.2.1 "3" "10.0.0.1" [] (by decide),
   (parseMTRRaw_by_tokens "h 3 10.0.0.1").2.2.2.2.2 "3" 3 (by decide) (by decide) (by decide),
   (parseMTRRaw_by_tokens "p 3 1250 7").2.2.2.1 "3" "1250" "7" [] (by decide),
   (parseMTRRaw_by_tokens "p 3 1250 7").2.2.2.2.2 "1250" 1250 (by decide) (by decide) (by decide),
   (parseMTRRaw_by_tokens "p 3 1250 7").2.2.2.2.2 "7" 7 (by decide) (by decide) (by decide),
   (parseMTRRaw_by_tokens "q unknown").2.2.2.2.1 (by decide)⟩

/-- C6 as stated fails: the line `h abc 10.0.0.1` is of the hop sub-format, its hop
token `abc` is not an integer (`strconv.Atoi` reports a syntax error), and the parser
still emits a hop event, carrying the number 0. -/
theorem parseMTRRaw_invalid_number_counterexample :
    recognized (Fields "h abc 10.0.0.1") = true ∧
    decimalInt "abc" = none ∧ (Atoi "abc").2 = some .ErrSyntax ∧
    parseMTRRaw "h abc 10.0.0.1" = .ok (some
      [("type", .str "hop"), ("hop", .int 0), ("ip", .str "10.0.0.1")]) := by
  decide

/-- C6 amended: a line of a recognized sub-format always produces the event of that
sub-format, also when a numeric token is not a valid integer; the parser neither
skips the line nor reports an error.  Each numeric field holds what `atoi` returns
for its token: 0 when `strconv.Atoi` reports a syntax error; on a range error the
largest `int`, or the smallest `int` when the token starts with a minus sign, which
for a decimal integer token outside the `int` range is the bound nearest to it.  A
token that is not a decimal integer always gets one of these two errors. -/
theorem parseMTRRaw_invalid_number_still_event (line : String) :
    (recognized (Fields line) = true → ∃ ev, parseMTRRaw line = .ok (some ev)) ∧
    (∀ p1 p2 rest, Fields line = "x" :: p1 :: p2 :: rest →
      parseMTRRaw line = .ok (some
        [("type", .str "cycle"), ("cycle", .int (atoi p1)), ("cycle_id", .int (atoi p2))])) ∧
    (∀ p1 p2 rest, Fields line = "h" :: p1 :: p2 :: rest →
      parseMTRRaw line = .ok (some
        [("type", .str "hop"), ("hop", .int (atoi p1)), ("ip", .str p2)])) ∧
    (∀ p1 p2 p3 rest, Fields line = "p" :: p1 :: p2 :: p3 :: rest →
      parseMTRRaw line = .ok (some
        [("type", .str "ping"), ("hop", .int (atoi p1)), ("rtt", .int (atoi p2)),
          ("cycle_id", .int (atoi p3))])) ∧
    (∀ t : String, decimalInt t = none →
      (Atoi t).2 = some .ErrSyntax ∨ (Atoi t).2 = some .ErrRange) ∧
    (∀ t : String, (Atoi t).2 = some .ErrSyntax → atoi t = 0) ∧
    (∀ t : String, (Atoi t).2 = some .ErrRange →
      atoi t = if HasPrefix t "-" then -(2 : Int) ^ 63 else (2 : Int) ^ 63 - 1) ∧
    (∀ (t : String) (n : Int), decimalInt t = some n → (2 : Int) ^ 63 ≤ n →
      (Atoi t).2 = some .ErrRange ∧ atoi t = (2 : Int) ^ 63 - 1) ∧
    (∀ (t : String) (n : Int), decimalInt t = some n → n < -(2 : Int) ^ 63 →
      (Atoi t).2 = some .ErrRange ∧ atoi t = -(2 : Int) ^ 63) := by
  refine ⟨?_, ?_, ?_, ?_, ?_, atoi_of_ErrSyntax, atoi_of_ErrRange_sign, ?_, ?_⟩
  · unfold parseMTRRaw recognized
    rcases Fields line with _ | ⟨p0, _ | ⟨p1, _ | ⟨p2, _ | ⟨p3, rest⟩⟩⟩⟩ <;> simp <;>
      split_ifs <;> simp_all
  · intro p1 p2 rest h
    simp [parseMTRRaw, h]
  · intro p1 p2 rest h
    simp [parseMTRRaw, h]
  · intro p1 p2 p3 rest h
    simp [parseMTRRaw, h]
  · intro t h
    have hne := Atoi_of_not_decimalInt t h
    rcases he : (Atoi t).2 with _ | e
    · exact absurd he hne
    · cases e
      · exact Or.inl rfl
      · exact Or.inr rfl
  · intro t n h hn
    have := Atoi_decimalInt_high t n h hn
    exact ⟨by rw [this], by rw [← Atoi_fst_eq_atoi, this]⟩
  · intro t n h hn
    have := Atoi_decimalInt_low t n h hn
    exact ⟨by rw [this], by rw [← Atoi_fst_eq_atoi, this]⟩

/-- C6 amended, at lines of the three sub-formats whose numeric tokens are not valid
integers: `h abc 10.0.0.1` gives the hop event with hop 0, `x 1 two` the cycle event
with cycle id 0, `p 1 99999999999999999999 -99999999999999999999` the probe-result
event with the largest `int` as round-trip time and the smallest as cycle id. -/
theorem parseMTRRaw_invalid_number_still_event_witness :
    (∃ ev, parseMTRRaw "h abc 10.0.0.1" = .ok (some ev)) ∧
    parseMTRRaw "h abc 10.0.0.1" = .ok (some
        [("type", .str "hop"), ("hop", .int (atoi "abc")), ("ip", .str "10.0.0.1")]) ∧
    ((Atoi "abc").2 = some .ErrSyntax ∨ (Atoi "abc").2 = some .ErrRange) ∧
    atoi "abc" = 0 ∧
    parseMTRRaw "x 1 two" = .ok (some
        [("type", .str "cycle"), ("cycle", .int (atoi "1")), ("cycle_id", .int (atoi "two"))]) ∧
    atoi "two" = 0 ∧
    parseMTRRaw "p 1 99999999999999999999 -99999999999999999999" = .ok (some
        [("type", .str "ping"), ("hop", .int (atoi "1")),
          ("rtt", .int (atoi "99999999999999999999")),
          ("cycle_id", .int (atoi "-99999999999999999999"))]) ∧
    ((Atoi "99999999999999999999").2 = some .ErrRange ∧
      atoi "99999999999999999999" = (2 : Int) ^ 63 - 1) ∧
    ((Atoi "-99999999999999999999").2 = some .ErrRange ∧
      atoi "-99999999999999999999" = -(2 : Int) ^ 63) ∧
    atoi "99999999999999999999x"
      = (if HasPrefix "99999999999999999999x" "-" then -(2 : Int) ^ 63 else (2 : Int) ^ 63 - 1) :=
  ⟨(parseMTRRaw_invalid_number_still_event "h abc 10.0.0.1").1 (by decide),
   (parseMTRRaw_invalid_number_still_event "h abc 10.0.0.1").2.2.1
      "abc" "10.0.0.1" [] (by decide),
   (parseMTRRaw_invalid_number_still_event "h abc 10.0.0.1").2.2.2.2.1 "abc" (by decide),
   (parseMTRRaw_invalid_number_still_event "h abc 10.0.0.1").2.2.2.2.2.1 "abc" (by decide),
   (parseMTRRaw_invalid_number_still_event "x 1 two").2.1 "1" "two" [] (by decide),
   (parseMTRRaw_invalid_number_still_event "x 1 two").2.2.2.2.2.1 "two" (by decide),
   (parseMTRRaw_invalid_number_still_event
      "p 1 99999999999999999999 -99999999999999999999").2.2.2.1
      "1" "99999999999999999999" "-99999999999999999999" [] (by decide),
   (parseMTRRaw_invalid_number_still_event
      "p 1 99999999999999999999 -99999999999999999999").2.2.2.2.2.2.2.1
      "99999999999999999999" 99999999999999999999 (by decide) (by decide),
   (parseMTRRaw_invalid_number_still_event
      "p 1 99999999999999999999 -99999999999999999999").2.2.2.2.2.2.2.2
      "-99999999999999999999" (-99999999999999999999) (by decide) (by decide),
   (parseMTRRaw_invalid_number_still_event "h abc 10.0.0.1").2.2.2.2.2.2.1
      "99999999999999999999x" (by decide)⟩

/-! ## The latency-probe parser -/

theorem fieldsLoop_noSpace (s : List Char) :
    ∀ cur : List Char, (∀ c ∈ cur, isSpace c = false) →
      ∀ t ∈ fieldsLoop s cur, t ≠ [] ∧ ∀ c ∈ t, isSpace c = false := by
  induction s with
  | nil =>
    intro cur hcur t ht
    unfold fieldsLoop at ht
    cases cur with
    | nil => simp at ht
    | cons a as =>
      simp at ht
      subst ht
      exact ⟨by simp, hcur⟩
  | cons c cs ih =>
    intro cur hcur t ht
    unfold fieldsLoop at ht
    by_cases hc : isSpace c = true
    · rw [if_pos hc] at ht
      cases cur with
      | nil =>
        simp at ht
        exact ih [] (by simp) t ht
      | cons a as =>
        simp at ht
        rcases ht with ht | ht
        · subst ht; exact ⟨by simp, hcur⟩
        · exact ih [] (by simp) t ht
    · rw [if_neg hc] at ht
      refine ih (cur ++ [c]) ?_ t ht
      intro d hd
      rw [List.mem_append] at hd
      rcases hd with hd | hd
      · exact hcur d hd
      · simp at hd; subst hd; simpa using hc

/-- The tokens of `strings.Fields` are non-empty and contain no white space. -/
theorem Fields_noSpace (line : String) (t : String) (ht : t ∈ Fields line) :
    t ≠ "" ∧ noSpace t := by
  unfold Fields at ht
  rw [List.mem_map] at ht
  obtain ⟨l, hl, rfl⟩ := ht
  have := fieldsLoop_noSpace line.data [] (by simp) l hl
  refine ⟨?_, this.2⟩
  intro h
  apply this.1
  have : (String.mk l).data = "".data := by rw [h]
  simpa using this

theorem dropWhile_noSpace (l : List Char) (h : ∀ c ∈ l, isSpace c = false) :
    l.dropWhile isSpace = l := by
  cases l with
  | nil => rfl
  | cons a as => simp [List.dropWhile, h a (by simp)]

theorem TrimSpace_noSpace (s : String) (h : noSpace s) : TrimSpace s = s := by
  unfold TrimSpace
  rw [dropWhile_noSpace _ h, dropWhile_noSpace _ (by intro c hc; exact h c (by simpa using hc))]
  simp

theorem TrimSuffix_ms_noSpace (s : String) (h : noSpace s) : TrimSuffix s " ms" = s := by
  unfold TrimSuffix
  rw [if_neg]
  intro hs
  unfold HasSuffix at hs
  rw [List.isSuffixOf_iff_suffix] at hs
  have hmem : ' ' ∈ s.data := hs.subset (by decide)
  have := h ' ' hmem
  revert this
  decide

theorem TrimPrefix_noSpace (s pre : String) (h : noSpace s) : noSpace (TrimPrefix s pre) := by
  unfold TrimPrefix
  split
  · intro c hc
    exact h c (List.mem_of_mem_drop hc)
  · exact h

theorem pingScanStep_eq (st : String × String) (f : String) (h : noSpace f) :
    pingScanStep st f =
      if isSeqToken f then (seqValueOf f, st.2)
      else if isTimeToken f then (st.1, TrimPrefix f "time=")
      else st := by
  unfold pingScanStep isSeqToken seqValueOf isTimeToken
  have h1 := TrimPrefix_noSpace f "time=" h
  rw [TrimSuffix_ms_noSpace _ h1, TrimSpace_noSpace _ h1]
  by_cases a : HasPrefix f "icmp_seq=" = true
  · simp [a]
  · by_cases b : HasPrefix f "seq=" = true
    · simp [a, b]
    · simp [a, b]

theorem not_seq_of_time (f : String) (h : isTimeToken f = true) : isSeqToken f = false := by
  unfold isTimeToken HasPrefix at h
  unfold isSeqToken HasPrefix
  obtain ⟨l⟩ := f
  cases l with
  | nil => simp at h
  | cons c cs =>
    have hc : c = 't' := by
      have : "time=".data = 't' :: "ime=".data := rfl
      rw [this] at h
      simp only [List.isPrefixOf, Bool.and_eq_true, beq_iff_eq] at h
      exact h.1.symm
    subst hc
    rfl

/-- The field loop of `parsePing` finds the value of the last sequence token and the
value of the last time token. -/
theorem pingScan_eq (tokens : List String) (h : ∀ t ∈ tokens, noSpace t) :
    pingScan tokens = (seqFound tokens, timeFound tokens) := by
  induction tokens using List.reverseRecOn with
  | nil => rfl
  | append_singleton ts f ih =>
    have ihs := ih (fun t ht => h t (by simp [ht]))
    have hf := h f (by simp)
    unfold pingScan at ihs ⊢
    rw [List.foldl_append, List.foldl_cons, List.foldl_nil, ihs, pingScanStep_eq _ _ hf]
    by_cases a : isSeqToken f = true
    · have b : isTimeToken f = false := by
        by_contra hb
        have := not_seq_of_time f (by simpa using hb)
        rw [a] at this; cases this
      simp [seqFound, timeFound, List.filter_append, a, b]
    · by_cases b : isTimeToken f = true
      · simp [seqFound, timeFound, List.filter_append, a, b]
      · simp [seqFound, timeFound, List.filter_append, a, b]

theorem pingScan_Fields (line : String) :
    pingScan (Fields line) = (seqFound (Fields line), timeFound (Fields line)) :=
  pingScan_eq _ (fun t ht => (Fields_noSpace line t ht).2)

theorem parsePing_eq (pf : String → Except GoError Float64) (line : String) :
    parsePing pf line =
      if Contains line "bytes from" then
        if seqFound (Fields line) != "" && timeFound (Fields line) != "" then
          match pf (timeFound (Fields line)) with
          | .error err => .error err
          | .ok rtt =>
            .ok (some [("type", .str "ping"), ("seq", .int (atoi (seqFound (Fields line)))),
              ("rtt_ms", .float rtt), ("rawLine", .str line)])
        else .ok none
      else .ok none := by
  unfold parsePing
  simp only [pingScan_Fields]

theorem seqFound_of_none (tokens : List String) (h : ∀ t ∈ tokens, isSeqToken t = false) :
    seqFound tokens = "" := by
  have : tokens.filter isSeqToken = [] := by
    rw [List.filter_eq_nil_iff]
    intro t ht
    simp [h t ht]
  simp [seqFound, this]

theorem timeFound_of_none (tokens : List String) (h : ∀ t ∈ tokens, isTimeToken t = false) :
    timeFound tokens = "" := by
  have : tokens.filter isTimeToken = [] := by
    rw [List.filter_eq_nil_iff]
    intro t ht
    simp [h t ht]
  simp [timeFound, this]

/-- C4: `parsePing` returns an error exactly when the line contains `bytes from`, a
non-empty sequence value and a non-empty time value were found, and the time value
fails to parse as a float.  Whenever the time value parses, the result is the event,
whatever the sequence text (its conversion by `atoi` never fails).  A line without
`bytes from`, without a sequence token or value, or without a time token or value
gives no event and no error. -/
theorem parsePing_error_iff (pf : String → Except GoError Float64) (line : String) :
    ((∃ e, parsePing pf line = .error e) ↔
      (Contains line "bytes from" = true ∧ seqFound (Fields line) ≠ "" ∧
        timeFound (Fields line) ≠ "" ∧ ∃ e, pf (timeFound (Fields line)) = .error e)) ∧
    (∀ v, Contains line "bytes from" = true → seqFound (Fields line) ≠ "" →
      timeFound (Fields line) ≠ "" → pf (timeFound (Fields line)) = .ok v →
      parsePing pf line = .ok (some
        [("type", .str "ping"), ("seq", .int (atoi (seqFound (Fields line)))),
          ("rtt_ms", .float v), ("rawLine", .str line)])) ∧
    ((Contains line "bytes from" = false ∨ seqFound (Fields line) = "" ∨
        timeFound (Fields line) = "") → parsePing pf line = .ok none) ∧
    (((∀ t ∈ Fields line, isSeqToken t = false) ∨ (∀ t ∈ Fields line, isTimeToken t = false)) →
      parsePing pf line = .ok none) := by
  have key : (Contains line "bytes from" = false ∨ seqFound (Fields line) = "" ∨
        timeFound (Fields line) = "") → parsePing pf line = .ok none := by
    intro h
    rw [parsePing_eq]
    rcases h with h | h | h
    · simp [h]
    · simp [h]
    · simp [h]
  refine ⟨?_, ?_, key, ?_⟩
  · rw [parsePing_eq]
    by_cases hc : Contains line "bytes from" = true
    · by_cases hs : seqFound (Fields line) = ""
      · simp [hc, hs]
      · by_cases ht : timeFound (Fields line) = ""
        · simp [hc, hs, ht]
        · rcases hp : pf (timeFound (Fields line)) with e | v
          · simp [hc, hs, ht, hp]
          · simp [hc, hs, ht, hp]
    · simp [hc]
  · intro v hc hs ht hp
    rw [parsePing_eq]
    simp [hc, hs, ht, hp]
  · intro h
    apply key
    rcases h with h | h
    · right; left; exact seqFound_of_none _ h
    · right; right; exact timeFound_of_none _ h

/-- C4 at three lines: a time value that does not parse gives the error; a sequence
value that is not an integer gives the event with sequence number 0, not an error;
a line without `time=` gives no event and no error. -/
theorem parsePing_error_iff_witness :
    (∃ e, parsePing exampleParseFloat
        "64 bytes from 1.1.1.1: icmp_seq=5 ttl=56 time=fast ms" = .error e) ∧
    parsePing exampleParseFloat "64 bytes from 1.1.1.1: icmp_seq=five ttl=56 time=11.3 ms" =
      .ok (some [("type", .str "ping"),
        ("seq", .int (atoi (seqFound
          (Fields "64 bytes from 1.1.1.1: icmp_seq=five ttl=56 time=11.3 ms")))),
        ("rtt_ms", .float ⟨0x402699999999999A⟩),
        ("rawLine", .str "64 bytes from 1.1.1.1: icmp_seq=five ttl=56 time=11.3 ms")]) ∧
    parsePing exampleParseFloat "64 bytes from 1.1.1.1: icmp_seq=5 ttl=56" = .ok none :=
  ⟨(parsePing_error_iff exampleParseFloat
      "64 bytes from 1.1.1.1: icmp_seq=5 ttl=56 time=fast ms").1.mpr
      ⟨by decide, by decide, by decide, _, rfl⟩,
   (parsePing_error_iff exampleParseFloat
      "64 bytes from 1.1.1.1: icmp_seq=five ttl=56 time=11.3 ms").2.1
      ⟨0x402699999999999A⟩ (by decide) (by decide) (by decide) (by decide),
   (parsePing_error_iff exampleParseFloat
      "64 bytes from 1.1.1.1: icmp_seq=5 ttl=56").2.2.2 (Or.inr (by decide))⟩

theorem HasPrefix_append (p s : String) : HasPrefix (p ++ s) p = true := by
  simp [HasPrefix, String.data_append]

theorem TrimPrefix_append (p s : String) : TrimPrefix (p ++ s) p = s := by
  unfold TrimPrefix
  rw [if_pos (HasPrefix_append p s)]
  simp [String.data_append]

theorem seqValueOf_icmp (N : String) : seqValueOf ("icmp_seq=" ++ N) = N := by
  unfold seqValueOf
  rw [if_pos (HasPrefix_append _ _), TrimPrefix_append]

theorem seqValueOf_seq (N : String) : seqValueOf ("seq=" ++ N) = N := by
  unfold seqValueOf
  have : HasPrefix ("seq=" ++ N) "icmp_seq=" = false := by
    have h1 : ("seq=" ++ N).data = 's' :: ("eq=".data ++ N.data) := by
      rw [String.data_append]; rfl
    have h2 : "icmp_seq=".data = 'i' :: "cmp_seq=".data := rfl
    simp [HasPrefix, h1, h2, List.isPrefixOf]
  rw [this]
  simp [TrimPrefix_append]

theorem decimalInt_digits (N : String) (h1 : N.data ≠ []) (h2 : N.data.all isDigit = true) :
    decimalInt N = some (decValueFrom 0 N.data : Int) := by
  unfold decimalInt
  cases hd : N.data with
  | nil => exact absurd hd h1
  | cons c cs =>
    rw [hd] at h2
    have hc : isDigit c = true := by
      simp only [List.all_cons, Bool.and_eq_true] at h2; exact h2.1
    simp [isDigit_ne_minus c hc, isDigit_ne_plus c hc]
    simpa using h2

theorem decimalParseFloat_onDecimals : ParseFloatOnDecimals decimalParseFloat := by
  intro T m k h
  refine ⟨?_, ?_⟩
  · intro x hx
    simp [decimalParseFloat, h, hx]
  · intro hx
    refine ⟨"strconv.ParseFloat: parsing \"" ++ T ++ "\": value out of range", ?_⟩
    simp [decimalParseFloat, h, hx]

theorem decimalNumber_ne_empty (T : String) (m k : Nat) (h : decimalNumber T = some (m, k)) :
    T ≠ "" := by
  intro h0
  subst h0
  have h1 : decimalNumber "" = none := by decide
  rw [h1] at h
  cases h

set_option maxRecDepth 200000 in
set_option exponentiation.threshold 2000 in
/-- C3 as stated fails, in three ways.  (1) In the first line the only sequence token
is `icmp_seq=9223372036854775808`, a decimal non-negative integer, and the event's
sequence number is 9223372036854775807.  (2) In the second line the only time token is
`time=` followed by the decimal number 1 with 309 zeros, which is beyond the `float64`
range: the result is the error of the float reader, not an event.  (3) In the line of
the specification the round-trip time is the `float64` with bit pattern
0x402699999999999A, whose exact value is not 11.3. -/
theorem parsePing_number_range_counterexample :
    (Contains "64 bytes from 1.1.1.1: icmp_seq=9223372036854775808 ttl=56 time=11.3 ms"
        "bytes from" = true ∧
      (Fields "64 bytes from 1.1.1.1: icmp_seq=9223372036854775808 ttl=56 time=11.3 ms").filter
        isSeqToken = ["icmp_seq=9223372036854775808"] ∧
      (Fields "64 bytes from 1.1.1.1: icmp_seq=9223372036854775808 ttl=56 time=11.3 ms").filter
        isTimeToken = ["time=11.3"] ∧
      decimalInt "9223372036854775808" = some 9223372036854775808 ∧
      decimalNumber "11.3" = some (113, 1) ∧
      parsePing decimalParseFloat
        "64 bytes from 1.1.1.1: icmp_seq=9223372036854775808 ttl=56 time=11.3 ms" =
        .ok (some [("type", .str "ping"), ("seq", .int 9223372036854775807),
          ("rtt_ms", .float ⟨0x402699999999999A⟩),
          ("rawLine", .str
            "64 bytes from 1.1.1.1: icmp_seq=9223372036854775808 ttl=56 time=11.3 ms")])) ∧
    (Contains ⟨"64 bytes from 1.1.1.1: icmp_seq=5 ttl=56 time=1".data ++ List.replicate 309 '0'
          ++ " ms".data⟩ "bytes from" = true ∧
      (Fields ⟨"64 bytes from 1.1.1.1: icmp_seq=5 ttl=56 time=1".data ++ List.replicate 309 '0'
          ++ " ms".data⟩).filter isSeqToken = ["icmp_seq=5"] ∧
      (Fields ⟨"64 bytes from 1.1.1.1: icmp_seq=5 ttl=56 time=1".data ++ List.replicate 309 '0'
          ++ " ms".data⟩).filter isTimeToken
        = [⟨"time=1".data ++ List.replicate 309 '0'⟩] ∧
      decimalNumber ⟨'1' :: List.replicate 309 '0'⟩
        = some (decValueFrom 0 ('1' :: List.replicate 309 '0'), 0) ∧
      parsePing decimalParseFloat
        ⟨"64 bytes from 1.1.1.1: icmp_seq=5 ttl=56 time=1".data ++ List.replicate 309 '0'
          ++ " ms".data⟩ =
        .error ("strconv.ParseFloat: parsing \"" ++ ⟨'1' :: List.replicate 309 '0'⟩
          ++ "\": value out of range")) ∧
    (parsePing decimalParseFloat "64 bytes from 1.1.1.1: icmp_seq=5 ttl=56 time=11.3 ms" =
        .ok (some [("type", .str "ping"), ("seq", .int 5),
          ("rtt_ms", .float ⟨0x402699999999999A⟩),
          ("rawLine", .str "64 bytes from 1.1.1.1: icmp_seq=5 ttl=56 time=11.3 ms")]) ∧
      float64Value ⟨0x402699999999999A⟩ ≠ 113 / 10) := by
  refine ⟨by decide, by decide, by decide, ?_⟩
  norm_num [float64Value]

/-! ## The nearest `float64` -/

theorem roundHalfEven_spec (a b : Nat) (hb : 0 < b) :
    2 * a ≤ (2 * roundHalfEven a b + 1) * b ∧ 2 * roundHalfEven a b * b ≤ 2 * a + b := by
  have hdm := Nat.div_add_mod a b
  have hr := Nat.mod_lt a hb
  unfold roundHalfEven
  simp only
  generalize a / b = d at hdm ⊢
  generalize a % b = r at hdm hr ⊢
  have e1 : (2 * d + 1) * b = 2 * (b * d) + b := by ring
  have e2 : (2 * (d + 1) + 1) * b = 2 * (b * d) + 3 * b := by ring
  have e3 : 2 * d * b = 2 * (b * d) := by ring
  have e4 : 2 * (d + 1) * b = 2 * (b * d) + 2 * b := by ring
  split_ifs <;> simp only [e1, e2, e3, e4] <;> omega

theorem roundHalfEven_le (a b hi : Nat) (hb : 0 < b) (h : a ≤ hi * b) :
    roundHalfEven a b ≤ hi := by
  have hs := (roundHalfEven_spec a b hb).2
  by_contra hc
  have h1 : hi + 1 ≤ roundHalfEven a b := by omega
  have h2 : 2 * (hi + 1) * b ≤ 2 * roundHalfEven a b * b :=
    Nat.mul_le_mul_right b (by omega)
  have e1 : 2 * (hi + 1) * b = 2 * (hi * b) + 2 * b := by ring
  omega

theorem roundHalfEven_ge (a b lo : Nat) (hb : 0 < b) (h : lo * b ≤ a) :
    lo ≤ roundHalfEven a b := by
  have hs := (roundHalfEven_spec a b hb).1
  by_contra hc
  have h1 : roundHalfEven a b + 1 ≤ lo := by omega
  have h2 : (2 * roundHalfEven a b + 2) * b ≤ 2 * lo * b :=
    Nat.mul_le_mul_right b (by omega)
  have e1 : (2 * roundHalfEven a b + 2) * b = (2 * roundHalfEven a b + 1) * b + b := by ring
  have e2 : 2 * lo * b = 2 * (lo * b) := by ring
  omega

theorem log2Floor_spec (fuel : Nat) :
    ∀ n, n ≤ fuel → 1 ≤ n → 2 ^ log2Floor fuel n ≤ n ∧ n < 2 ^ (log2Floor fuel n + 1) := by
  induction fuel with
  | zero => intro n h1 h2; omega
  | succ f ih =>
    intro n h1 h2
    unfold log2Floor
    by_cases hn : n < 2
    · rw [if_pos hn]
      have : n = 1 := by omega
      subst this
      simp
    · rw [if_neg hn]
      have hh := ih (n / 2) (by omega) (by omega)
      have hdm := Nat.div_add_mod n 2
      have hm := Nat.mod_lt n (by norm_num : 0 < 2)
      rw [pow_succ, pow_succ]
      constructor
      · omega
      · have := hh.2
        rw [pow_succ] at this
        omega

/-- The scaled quotient used to find the exponent is at least 1, and its logarithm
brackets the number: with `s` and `L` as in `float64Exponent`,
`2 ^ L * 10 ^ k ≤ m * 2 ^ s < 2 ^ (L + 1) * 10 ^ k`. -/
theorem float64_bracket (m k : Nat) (hm : 0 < m) :
    ∃ s L : Nat, float64Exponent m k = max ((L : Int) - s - 52) (-1074) ∧
      2 ^ L * 10 ^ k ≤ m * 2 ^ s ∧ m * 2 ^ s < 2 ^ (L + 1) * 10 ^ k := by
  have hden : 0 < 10 ^ k := by positivity
  generalize hs : (if 10 ^ k ≤ m then 0 else log2Floor (10 ^ k) (10 ^ k) - log2Floor m m + 1) = s
  have hF0 : 10 ^ k ≤ m * 2 ^ s := by
    by_cases hle : 10 ^ k ≤ m
    · rw [if_pos hle] at hs
      subst hs
      simpa using hle
    · rw [if_neg hle] at hs
      have h1 := log2Floor_spec m m (le_refl _) hm
      have h2 := log2Floor_spec (10 ^ k) (10 ^ k) (le_refl _) hden
      generalize log2Floor m m = Lm at hs h1
      generalize log2Floor (10 ^ k) (10 ^ k) = Ld at hs h2
      have hlt : 2 ^ Lm < 2 ^ (Ld + 1) := by omega
      have hL : Lm < Ld + 1 := (Nat.pow_lt_pow_iff_right (by norm_num)).1 hlt
      have hs2 : Lm + s = Ld + 1 := by omega
      have : 2 ^ Lm * 2 ^ s ≤ m * 2 ^ s := Nat.mul_le_mul_right _ h1.1
      rw [← pow_add, hs2] at this
      omega
  have hn : 1 ≤ m * 2 ^ s / 10 ^ k := (Nat.le_div_iff_mul_le hden).2 (by simpa using hF0)
  have hsp := log2Floor_spec (m * 2 ^ s / 10 ^ k) (m * 2 ^ s / 10 ^ k) (le_refl _) hn
  refine ⟨s, log2Floor (m * 2 ^ s / 10 ^ k) (m * 2 ^ s / 10 ^ k), ?_, ?_, ?_⟩
  · unfold float64Exponent
    simp only
    rw [hs]
  · exact (Nat.le_div_iff_mul_le hden).1 hsp.1
  · exact (Nat.div_lt_iff_lt_mul hden).1 hsp.2

/-- The scaled number `m / 10 ^ k / 2 ^ e` lies below 2^53, and from 2^52 on when
`e` is above the smallest exponent. -/
theorem float64Exponent_bounds (m k : Nat) (hm : 0 < m) :
    -1074 ≤ float64Exponent m k ∧
    (0 ≤ float64Exponent m k →
      m < 2 ^ 53 * (10 ^ k * 2 ^ (float64Exponent m k).toNat) ∧
      2 ^ 52 * (10 ^ k * 2 ^ (float64Exponent m k).toNat) ≤ m) ∧
    (float64Exponent m k < 0 →
      m * 2 ^ (-float64Exponent m k).toNat < 2 ^ 53 * 10 ^ k ∧
      (-1074 < float64Exponent m k → 2 ^ 52 * 10 ^ k ≤ m * 2 ^ (-float64Exponent m k).toNat)) := by
  obtain ⟨s, L, he, h1, h2⟩ := float64_bracket m k hm
  generalize float64Exponent m k = e at he ⊢
  generalize 10 ^ k = den at h1 h2 ⊢
  have h2s : 0 < 2 ^ s := by positivity
  refine ⟨by rw [he]; exact le_max_right _ _, ?_, ?_⟩
  · intro h0
    obtain ⟨E, rfl⟩ := Int.eq_ofNat_of_zero_le h0
    have hL : L = E + s + 52 := by
      rcases max_cases ((L : Int) - s - 52) (-1074) with ⟨h, _⟩ | ⟨h, _⟩ <;> omega
    subst hL
    simp only [Int.toNat_ofNat]
    constructor
    · apply Nat.lt_of_mul_lt_mul_right (a := 2 ^ s)
      calc m * 2 ^ s < 2 ^ (E + s + 52 + 1) * den := h2
        _ = 2 ^ 53 * (den * 2 ^ E) * 2 ^ s := by ring
    · apply Nat.le_of_mul_le_mul_right _ h2s
      calc 2 ^ 52 * (den * 2 ^ E) * 2 ^ s = 2 ^ (E + s + 52) * den := by ring
        _ ≤ m * 2 ^ s := h1
  · intro hneg
    obtain ⟨E, hE⟩ : ∃ E : Nat, e = -(E : Int) := ⟨(-e).toNat, by omega⟩
    subst hE
    have hE1 : (- -(E : Int)).toNat = E := by simp
    rw [hE1]
    rcases max_cases ((L : Int) - s - 52) (-1074) with ⟨h, hb⟩ | ⟨h, hb⟩
    · have hL : L + E = s + 52 := by omega
      constructor
      · apply Nat.lt_of_mul_lt_mul_right (a := 2 ^ s)
        calc m * 2 ^ E * 2 ^ s = m * 2 ^ s * 2 ^ E := by ring
          _ < 2 ^ (L + 1) * den * 2 ^ E := Nat.mul_lt_mul_of_pos_right h2 (by positivity)
          _ = 2 ^ (L + E + 1) * den := by ring
          _ = 2 ^ (s + 52 + 1) * den := by rw [hL]
          _ = 2 ^ 53 * den * 2 ^ s := by ring
      · intro _
        apply Nat.le_of_mul_le_mul_right _ h2s
        calc 2 ^ 52 * den * 2 ^ s = 2 ^ (s + 52) * den := by ring
          _ = 2 ^ (L + E) * den := by rw [hL]
          _ = 2 ^ L * den * 2 ^ E := by ring
          _ ≤ m * 2 ^ s * 2 ^ E := Nat.mul_le_mul_right _ h1
          _ = m * 2 ^ E * 2 ^ s := by ring
    · have hE2 : E = 1074 := by omega
      subst hE2
      obtain ⟨j, hj⟩ : ∃ j : Nat, s + 52 = L + 1 + 1074 + j := ⟨s + 52 - (L + 1 + 1074), by omega⟩
      constructor
      · apply Nat.lt_of_mul_lt_mul_right (a := 2 ^ s)
        calc m * 2 ^ 1074 * 2 ^ s = m * 2 ^ s * 2 ^ 1074 := by ring
          _ < 2 ^ (L + 1) * den * 2 ^ 1074 := Nat.mul_lt_mul_of_pos_right h2 (by positivity)
          _ = 2 ^ (L + 1 + 1074) * den := by ring
          _ ≤ 2 ^ (L + 1 + 1074) * den * 2 ^ j := Nat.le_mul_of_pos_right _ (by positivity)
          _ = 2 ^ (L + 1 + 1074 + j) * den := by ring
          _ = 2 ^ (s + 52) * den := by rw [hj]
          _ ≤ 2 ^ (s + 52) * den * 2 := Nat.le_mul_of_pos_right _ (by norm_num)
          _ = 2 ^ 53 * den * 2 ^ s := by ring
      · intro h; omega

/-- The bit pattern built from an exponent `e` and a rounded significand `M` is the
`float64` whose value is `M * 2 ^ e`. -/
theorem float64Value_encode (e : Int) (M : Nat) (he : -1074 ≤ e) (hM : M ≤ 2 ^ 53)
    (hlo : -1074 < e → 2 ^ 52 ≤ M) :
    float64Value ⟨(e + 1074).toNat * 2 ^ 52 + M⟩ = (M : ℚ) * 2 ^ e := by
  obtain ⟨a, ha⟩ : ∃ a : Nat, e = (a : Int) - 1074 := ⟨(e + 1074).toNat, by omega⟩
  subst ha
  have ha2 : ((a : Int) - 1074 + 1074).toNat = a := by simp
  rw [ha2]
  have p52 : (2 : Nat) ^ 52 = 4503599627370496 := by norm_num
  have p53 : (2 : Nat) ^ 53 = 9007199254740992 := by norm_num
  rw [p53] at hM
  rw [p52] at hlo
  unfold float64Value
  simp only [p52]
  by_cases h1 : M < 4503599627370496
  · have ha0 : a = 0 := by
      by_contra hne
      have := hlo (by omega)
      omega
    subst ha0
    have hd : (0 * 4503599627370496 + M) / 4503599627370496 = 0 := by omega
    have hmod : (0 * 4503599627370496 + M) % 4503599627370496 = M := by omega
    rw [if_pos hd, hmod]
    norm_num
  · by_cases h2 : M < 9007199254740992
    · have hd : (a * 4503599627370496 + M) / 4503599627370496 = a + 1 := by omega
      have hmod : 4503599627370496 + (a * 4503599627370496 + M) % 4503599627370496 = M := by
        omega
      rw [if_neg (by omega), hmod, hd]
      congr 2
      push_cast
      ring
    · have hM2 : M = 9007199254740992 := by omega
      subst hM2
      have hd : (a * 4503599627370496 + 9007199254740992) / 4503599627370496 = a + 2 := by
        omega
      have hmod : 4503599627370496
          + (a * 4503599627370496 + 9007199254740992) % 4503599627370496
          = 4503599627370496 := by omega
      rw [if_neg (by omega), hmod, hd]
      have hz : (2 : ℚ) ^ (((a + 2 : Nat) : Int) - 1075) = 2 * 2 ^ ((a : Int) - 1074) := by
        have : (((a + 2 : Nat) : Int) - 1075) = 1 + ((a : Int) - 1074) := by
          push_cast; ring
        rw [this, zpow_add₀ (by norm_num : (2 : ℚ) ≠ 0), zpow_one]
      rw [hz]
      push_cast
      ring

/-- The `float64` of a decimal number is finite and lies within half a unit in the
last place of the number: it is a nearest `float64`. -/
theorem float64OfDecimal_nearest (m k : Nat) (x : Float64)
    (h : float64OfDecimal m k = some x) :
    x.bits < 0x7FF0000000000000 ∧
    |float64Value x - (m : ℚ) / 10 ^ k| ≤ 2 ^ float64Exponent m k / 2 := by
  unfold float64OfDecimal at h
  by_cases hm0 : m = 0
  · subst hm0
    rw [if_pos rfl] at h
    injection h with h
    subst h
    refine ⟨by norm_num, ?_⟩
    have : float64Value ⟨0⟩ = 0 := by norm_num [float64Value]
    rw [this]
    simp only [Nat.cast_zero, zero_div, sub_zero, abs_zero]
    positivity
  · rw [if_neg hm0] at h
    simp only at h
    have hm : 0 < m := Nat.pos_of_ne_zero hm0
    obtain ⟨hge, hpos, hneg⟩ := float64Exponent_bounds m k hm
    generalize float64Exponent m k = e at h hge hpos hneg ⊢
    have hden : 0 < 10 ^ k := by positivity
    have hdenq : (0 : ℚ) < 10 ^ k := by positivity
    by_cases he : 0 ≤ e
    · rw [if_pos he] at h
      obtain ⟨hhi, hlo⟩ := hpos he
      obtain ⟨E, rfl⟩ := Int.eq_ofNat_of_zero_le he
      simp only [Int.toNat_ofNat] at h hhi hlo
      have hb : 0 < 10 ^ k * 2 ^ E := by positivity
      have hsp := roundHalfEven_spec m (10 ^ k * 2 ^ E) hb
      have hMle := roundHalfEven_le m (10 ^ k * 2 ^ E) (2 ^ 53) hb (le_of_lt hhi)
      have hMge := roundHalfEven_ge m (10 ^ k * 2 ^ E) (2 ^ 52) hb hlo
      generalize roundHalfEven m (10 ^ k * 2 ^ E) = M at h hsp hMle hMge
      split at h
      · rename_i hfin
        injection h with h
        subst h
        refine ⟨hfin, ?_⟩
        rw [float64Value_encode (E : Int) M hge hMle (fun _ => hMge)]
        have h1 : (2 : ℚ) * m ≤ (2 * M + 1) * (10 ^ k * 2 ^ E) := by exact_mod_cast hsp.1
        have h2 : (2 : ℚ) * M * (10 ^ k * 2 ^ E) ≤ 2 * m + 10 ^ k * 2 ^ E := by
          exact_mod_cast hsp.2
        rw [zpow_natCast, abs_le]
        constructor
        · rw [neg_le_sub_iff_le_add, div_le_iff₀ hdenq]
          nlinarith
        · rw [sub_le_iff_le_add, ← sub_le_iff_le_add', le_div_iff₀ hdenq]
          nlinarith
      · cases h
    · rw [if_neg he] at h
      obtain ⟨hhi, hlo⟩ := hneg (by omega)
      obtain ⟨E, hE⟩ : ∃ E : Nat, e = -(E : Int) := ⟨(-e).toNat, by omega⟩
      subst hE
      have hE1 : (- -(E : Int)).toNat = E := by simp
      rw [hE1] at h hhi hlo
      have hsp := roundHalfEven_spec (m * 2 ^ E) (10 ^ k) hden
      have hMle := roundHalfEven_le (m * 2 ^ E) (10 ^ k) (2 ^ 53) hden (le_of_lt hhi)
      have hMge : -1074 < -(E : Int) → 2 ^ 52 ≤ roundHalfEven (m * 2 ^ E) (10 ^ k) :=
        fun h => roundHalfEven_ge (m * 2 ^ E) (10 ^ k) (2 ^ 52) hden (hlo h)
      generalize roundHalfEven (m * 2 ^ E) (10 ^ k) = M at h hsp hMle hMge
      split at h
      · rename_i hfin
        injection h with h
        subst h
        refine ⟨hfin, ?_⟩
        rw [float64Value_encode (-(E : Int)) M hge hMle hMge]
        have h1 : (2 : ℚ) * (m * 2 ^ E) ≤ (2 * M + 1) * 10 ^ k := by exact_mod_cast hsp.1
        have h2 : (2 : ℚ) * M * 10 ^ k ≤ 2 * (m * 2 ^ E) + 10 ^ k := by exact_mod_cast hsp.2
        have hp : (0 : ℚ) < 2 ^ E := by positivity
        rw [zpow_neg, zpow_natCast, abs_le]
        have hinv : (2 : ℚ) ^ E * (2 ^ E)⁻¹ = 1 := mul_inv_cancel₀ (ne_of_gt hp)
        constructor
        · rw [neg_le_sub_iff_le_add, div_le_iff₀ hdenq]
          have : (m : ℚ) = (m * 2 ^ E) * (2 ^ E)⁻¹ := by
            rw [mul_assoc, hinv, mul_one]
          have hi : (0 : ℚ) < (2 ^ E)⁻¹ := inv_pos.2 hp
          nlinarith
        · rw [sub_le_iff_le_add, ← sub_le_iff_le_add', le_div_iff₀ hdenq]
          have : (m : ℚ) = (m * 2 ^ E) * (2 ^ E)⁻¹ := by
            rw [mul_assoc, hinv, mul_one]
          have hi : (0 : ℚ) < (2 ^ E)⁻¹ := inv_pos.2 hp
          nlinarith
      · cases h

/-- C3 amended: for every line that contains `bytes from` and whose tokens include
exactly one sequence token `icmp_seq=N` (or `seq=N`), with `N` a string of decimal
digits denoting a number below 2^63, and exactly one token `time=T`, with `T` a plain
decimal number `m / 10 ^ k` within the `float64` range, `parsePing` returns without
error the event with sequence number `N`, with round-trip time the `float64` nearest
to `T` (within half a unit in the last place of `T`), and with the input line
unchanged as raw line.  The float reader is any function with the documented
behaviour of `strconv.ParseFloat` on decimal numbers. -/
theorem parsePing_result_line (pf : String → Except GoError Float64)
    (hpf : ParseFloatOnDecimals pf) (line N T : String) (m k : Nat) (x : Float64)
    (hc : Contains line "bytes from" = true)
    (hseq : (Fields line).filter isSeqToken = ["icmp_seq=" ++ N] ∨
      (Fields line).filter isSeqToken = ["seq=" ++ N])
    (htime : (Fields line).filter isTimeToken = ["time=" ++ T])
    (hN : N.data ≠ [] ∧ N.data.all isDigit = true)
    (hrange : decValueFrom 0 N.data < 2 ^ 63)
    (hT : decimalNumber T = some (m, k))
    (hx : float64OfDecimal m k = some x) :
    parsePing pf line = .ok (some
      [("type", .str "ping"), ("seq", .int (decValueFrom 0 N.data)), ("rtt_ms", .float x),
        ("rawLine", .str line)]) ∧
    |float64Value x - (m : ℚ) / 10 ^ k| ≤ 2 ^ float64Exponent m k / 2 := by
  refine ⟨?_, (float64OfDecimal_nearest m k x hx).2⟩
  have hs : seqFound (Fields line) = N := by
    unfold seqFound
    rcases hseq with h | h
    · rw [h]; simp [seqValueOf_icmp]
    · rw [h]; simp [seqValueOf_seq]
  have ht : timeFound (Fields line) = T := by
    unfold timeFound
    rw [htime]; simp [TrimPrefix_append]
  have hNne : N ≠ "" := by
    intro h; apply hN.1; rw [h]
  have hTne : T ≠ "" := decimalNumber_ne_empty T m k hT
  have hpfT : pf T = .ok x := (hpf T m k hT).1 x hx
  have hat : atoi N = (decValueFrom 0 N.data : Int) := by
    rw [← Atoi_fst_eq_atoi,
      atoi_decimalInt N _ (decimalInt_digits N hN.1 hN.2)
        (le_trans (by norm_num) (Int.ofNat_nonneg _)) (by exact_mod_cast hrange)]
  rw [parsePing_eq]
  simp [hc, hs, ht, hNne, hTne, hpfT, hat]

/-- C3 amended, at the line of the specification: sequence number 5, the `float64`
nearest to 11.3 (bit pattern 0x402699999999999A, the one Go prints as 11.3), and the
line itself. -/
theorem parsePing_result_line_witness :
    parsePing decimalParseFloat "64 bytes from 1.1.1.1: icmp_seq=5 ttl=56 time=11.3 ms" =
      .ok (some [("type", .str "ping"), ("seq", .int (decValueFrom 0 "5".data)),
        ("rtt_ms", .float ⟨0x402699999999999A⟩),
        ("rawLine", .str "64 bytes from 1.1.1.1: icmp_seq=5 ttl=56 time=11.3 ms")]) ∧
    |float64Value ⟨0x402699999999999A⟩ - ((113 : Nat) : ℚ) / 10 ^ 1|
      ≤ 2 ^ float64Exponent 113 1 / 2 ∧
    decValueFrom 0 "5".data = 5 ∧ float64Exponent 113 1 = -49 :=
  ⟨(parsePing_result_line decimalParseFloat decimalParseFloat_onDecimals
      "64 bytes from 1.1.1.1: icmp_seq=5 ttl=56 time=11.3 ms" "5" "11.3" 113 1
      ⟨0x402699999999999A⟩
      (by decide) (Or.inl (by decide)) (by decide) (by decide) (by decide) (by decide)
      (by decide)).1,
   (parsePing_result_line decimalParseFloat decimalParseFloat_onDecimals
      "64 bytes from 1.1.1.1: icmp_seq=5 ttl=56 time=11.3 ms" "5" "11.3" 113 1
      ⟨0x402699999999999A⟩
      (by decide) (Or.inl (by decide)) (by decide) (by decide) (by decide) (by decide)
      (by decide)).2,
   by decide, by decide⟩

/-! ## The domain pattern -/

theorem rxLDH_matches (x : List CharClass) :
    x ∈ rxLDH.matches' ↔ ∃ a, ldhClass a ∧ x = [a] := by
  unfold rxLDH ldhClass
  simp only [RegularExpression.plus_def, RegularExpression.matches'_add,
    RegularExpression.matches'_char, Language.mem_add]
  constructor
  · rintro ((h | h) | h)
    · exact ⟨.alpha, Or.inl rfl, h⟩
    · exact ⟨.digit, Or.inr (Or.inl rfl), h⟩
    · exact ⟨.hyphen, Or.inr (Or.inr rfl), h⟩
  · rintro ⟨a, (h | h | h), rfl⟩
    · subst h; exact Or.inl (Or.inl rfl)
    · subst h; exact Or.inl (Or.inr rfl)
    · subst h; exact Or.inr rfl

theorem star_singletons (R : RegularExpression CharClass) (P : CharClass → Prop)
    (hR : ∀ x, x ∈ R.matches' ↔ ∃ a, P a ∧ x = [a]) (x : List CharClass) :
    x ∈ (RegularExpression.star R).matches' ↔ ∀ a ∈ x, P a := by
  rw [RegularExpression.matches'_star, Language.mem_kstar]
  constructor
  · rintro ⟨L, rfl, hL⟩ a ha
    rw [List.mem_flatten] at ha
    obtain ⟨y, hy, hay⟩ := ha
    obtain ⟨b, hb, rfl⟩ := (hR y).1 (hL y hy)
    simp at hay
    subst hay
    exact hb
  · intro h
    refine ⟨x.map fun a => [a], ?_, ?_⟩
    · induction x with
      | nil => rfl
      | cons a as ih =>
        simp only [List.map_cons, List.flatten_cons, List.singleton_append]
        rw [← ih (fun b hb => h b (List.mem_cons_of_mem _ hb))]
    · intro y hy
      rw [List.mem_map] at hy
      obtain ⟨a, ha, rfl⟩ := hy
      exact (hR [a]).2 ⟨a, h a ha, rfl⟩

theorem plus_singletons (R : RegularExpression CharClass) (P : CharClass → Prop)
    (hR : ∀ x, x ∈ R.matches' ↔ ∃ a, P a ∧ x = [a]) (x : List CharClass) :
    x ∈ (RegularExpression.comp R (RegularExpression.star R)).matches' ↔
      x ≠ [] ∧ ∀ a ∈ x, P a := by
  rw [RegularExpression.comp_def, RegularExpression.matches'_mul, Language.mem_mul]
  constructor
  · rintro ⟨y, hy, z, hz, rfl⟩
    obtain ⟨a, ha, rfl⟩ := (hR y).1 hy
    refine ⟨by simp, ?_⟩
    intro b hb
    simp only [List.singleton_append, List.mem_cons] at hb
    rcases hb with rfl | hb
    · exact ha
    · exact (star_singletons R P hR z).1 hz b hb
  · rintro ⟨hne, h⟩
    cases x with
    | nil => exact absurd rfl hne
    | cons a as =>
      refine ⟨[a], (hR [a]).2 ⟨a, h a (by simp), rfl⟩, as, ?_, rfl⟩
      exact (star_singletons R P hR as).2 (fun b hb => h b (List.mem_cons_of_mem _ hb))

theorem rxLabelDot_matches (x : List CharClass) :
    x ∈ rxLabelDot.matches' ↔
      ∃ l, l ≠ [] ∧ (∀ a ∈ l, ldhClass a) ∧ x = l ++ [CharClass.dot] := by
  unfold rxLabelDot
  rw [RegularExpression.comp_def, RegularExpression.matches'_mul, Language.mem_mul]
  constructor
  · rintro ⟨y, hy, z, hz, rfl⟩
    rw [plus_singletons rxLDH ldhClass rxLDH_matches] at hy
    rw [RegularExpression.matches'_char] at hz
    have hz1 : z = [CharClass.dot] := hz
    exact ⟨y, hy.1, hy.2, by rw [hz1]⟩
  · rintro ⟨l, hne, hl, rfl⟩
    exact ⟨l, (plus_singletons rxLDH ldhClass rxLDH_matches l).2 ⟨hne, hl⟩, [CharClass.dot],
      rfl, rfl⟩

theorem rxAlpha_matches (x : List CharClass) :
    x ∈ (RegularExpression.char CharClass.alpha).matches' ↔
      ∃ a, a = CharClass.alpha ∧ x = [a] := by
  rw [RegularExpression.matches'_char]
  constructor
  · intro h; exact ⟨.alpha, rfl, h⟩
  · rintro ⟨a, rfl, h⟩; exact h

theorem rxTLD_matches (x : List CharClass) :
    x ∈ rxTLD.matches' ↔ 2 ≤ x.length ∧ ∀ a ∈ x, a = CharClass.alpha := by
  unfold rxTLD
  rw [RegularExpression.comp_def, RegularExpression.comp_def, RegularExpression.matches'_mul,
    RegularExpression.matches'_mul, mul_assoc, Language.mem_mul]
  have hplus : ∀ z, z ∈ (RegularExpression.char CharClass.alpha).matches' *
      (RegularExpression.char CharClass.alpha).star.matches' ↔
      z ≠ [] ∧ ∀ a ∈ z, a = CharClass.alpha :=
    fun z => plus_singletons _ _ rxAlpha_matches z
  constructor
  · rintro ⟨y, hy, z, hz, rfl⟩
    have hy1 : y = [CharClass.alpha] := hy
    have hz2 := (hplus z).1 hz
    subst hy1
    refine ⟨?_, ?_⟩
    · have : z.length ≠ 0 := by
        intro h0; exact hz2.1 (List.length_eq_zero.1 h0)
      simp only [List.singleton_append, List.length_cons]
      omega
    · intro a ha
      simp only [List.singleton_append, List.mem_cons] at ha
      rcases ha with rfl | ha
      · rfl
      · exact hz2.2 a ha
  · rintro ⟨hlen, h⟩
    cases x with
    | nil => simp at hlen
    | cons a as =>
      have ha : a = CharClass.alpha := h a (by simp)
      subst ha
      refine ⟨[CharClass.alpha], rfl, as, ?_, rfl⟩
      refine (hplus as).2 ⟨?_, fun b hb => h b (List.mem_cons_of_mem _ hb)⟩
      intro h0
      subst h0
      simp at hlen

theorem domainRegex_matches (x : List CharClass) :
    x ∈ domainRegex.matches' ↔
      ∃ (Ls : List (List CharClass)) (F : List CharClass), Ls ≠ [] ∧
        (∀ y ∈ Ls, y ∈ rxLabelDot.matches') ∧ F ∈ rxTLD.matches' ∧ x = Ls.flatten ++ F := by
  unfold domainRegex
  rw [RegularExpression.comp_def, RegularExpression.comp_def, RegularExpression.matches'_mul,
    RegularExpression.matches'_mul, Language.mem_mul]
  constructor
  · rintro ⟨y, hy, F, hF, rfl⟩
    rw [Language.mem_mul] at hy
    obtain ⟨y1, hy1, y2, hy2, rfl⟩ := hy
    rw [RegularExpression.matches'_star, Language.mem_kstar] at hy2
    obtain ⟨L, rfl, hL⟩ := hy2
    refine ⟨y1 :: L, F, by simp, ?_, hF, by simp⟩
    intro z hz
    rcases List.mem_cons.1 hz with rfl | hz
    · exact hy1
    · exact hL z hz
  · rintro ⟨Ls, F, hne, hLs, hF, rfl⟩
    cases Ls with
    | nil => exact absurd rfl hne
    | cons y1 L =>
      refine ⟨y1 ++ L.flatten, ?_, F, hF, by simp⟩
      rw [Language.mem_mul]
      refine ⟨y1, hLs y1 (by simp), L.flatten, ?_, rfl⟩
      rw [RegularExpression.matches'_star, Language.mem_kstar]
      exact ⟨L, rfl, fun z hz => hLs z (List.mem_cons_of_mem _ hz)⟩

theorem isAlpha_iff (c : Char) :
    isAlpha c = true ↔ (97 ≤ c.toNat ∧ c.toNat ≤ 122) ∨ (65 ≤ c.toNat ∧ c.toNat ≤ 90) := by
  simp only [isAlpha, Bool.or_eq_true, Bool.and_eq_true, decide_eq_true_eq, Char.le_def]
  rfl

theorem classify_alpha (c : Char) : classify c = .alpha ↔ isAlpha c = true := by
  unfold classify
  split_ifs <;> simp_all

theorem classify_dot (c : Char) : classify c = .dot ↔ c = '.' := by
  unfold classify
  constructor
  · intro h
    split_ifs at h
    assumption
  · intro h
    subst h
    decide

theorem classify_ldh (c : Char) : ldhClass (classify c) ↔ isLDH c = true := by
  unfold classify ldhClass isLDH
  by_cases h1 : isAlpha c = true
  · simp [h1]
  · by_cases h2 : isDigit c = true
    · simp [h1, h2]
    · by_cases h3 : c = '-'
      · subst h3
        exact ⟨fun _ => by decide, fun _ => by decide⟩
      · by_cases h4 : c = '.'
        · subst h4
          exact ⟨fun h => absurd h (by decide), fun h => absurd h (by decide)⟩
        · simp [h1, h2, h3, h4]

theorem isLDH_ascii (c : Char) (h : isLDH c = true) : c.toNat < 128 := by
  unfold isLDH at h
  simp only [Bool.or_eq_true, decide_eq_true_eq] at h
  rcases h with (h | h) | h
  · rw [isAlpha_iff] at h; omega
  · rw [isDigit_iff] at h; omega
  · subst h; decide

theorem utf8Size_ascii (c : Char) (h : c.toNat < 128) : c.utf8Size = 1 := by
  unfold Char.utf8Size
  have : c.val ≤ UInt32.ofNatCore 127 (by decide) := by
    rw [UInt32.le_def]
    show c.val.toNat ≤ 127
    have : c.toNat = c.val.toNat := rfl
    omega
  simp only []
  rw [if_pos this]

theorem utf8ByteSize_go_ascii (l : List Char) (h : ∀ c ∈ l, c.toNat < 128) :
    String.utf8ByteSize.go l = l.length := by
  induction l with
  | nil => simp [String.utf8ByteSize.go]
  | cons c cs ih =>
    simp only [String.utf8ByteSize.go, List.length_cons]
    rw [ih (fun d hd => h d (List.mem_cons_of_mem _ hd)), utf8Size_ascii c (h c (by simp))]

/-- On ASCII text the byte length is the number of characters. -/
theorem len_ascii (s : String) (h : ∀ c ∈ s.data, c.toNat < 128) : len s = s.length :=
  utf8ByteSize_go_ascii s.data h

theorem DomainShape_ascii (l : List Char) (h : DomainShape l) : ∀ c ∈ l, c.toNat < 128 := by
  obtain ⟨labels, final, _, hl, _, hf, rfl⟩ := h
  intro c hc
  rw [List.mem_append, List.mem_flatten] at hc
  rcases hc with ⟨m, hm, hcm⟩ | hc
  · rw [List.mem_map] at hm
    obtain ⟨l, hlm, rfl⟩ := hm
    rw [List.mem_append] at hcm
    rcases hcm with hcm | hcm
    · exact isLDH_ascii c ((hl l hlm).2 c hcm)
    · simp at hcm; subst hcm; decide
  · have := hf c hc
    rw [isAlpha_iff] at this
    omega

theorem map_eq_flatten_append {α β : Type} (f : α → β) (Ms : List (List β)) :
    ∀ (s : List α) (F : List β), s.map f = Ms.flatten ++ F →
      ∃ (ss : List (List α)) (sf : List α),
        s = ss.flatten ++ sf ∧ ss.map (List.map f) = Ms ∧ sf.map f = F := by
  induction Ms with
  | nil =>
    intro s F h
    exact ⟨[], s, by simp, rfl, by simpa using h⟩
  | cons M Ms ih =>
    intro s F h
    rw [List.flatten_cons, List.append_assoc, List.map_eq_append_iff] at h
    obtain ⟨s1, s2, rfl, h1, h2⟩ := h
    obtain ⟨ss, sf, rfl, h3, h4⟩ := ih s2 F h2
    exact ⟨s1 :: ss, sf, by simp, by simp [h1, h3], h4⟩

theorem labelDot_pullback (m : List Char) (h : m.map classify ∈ rxLabelDot.matches') :
    m.dropLast ≠ [] ∧ (∀ c ∈ m.dropLast, isLDH c = true) ∧ m = m.dropLast ++ ['.'] := by
  rw [rxLabelDot_matches] at h
  obtain ⟨l, hne, hl, heq⟩ := h
  rw [List.map_eq_append_iff] at heq
  obtain ⟨m1, m2, rfl, h1, h2⟩ := heq
  have hm2 : m2 = ['.'] := by
    cases m2 with
    | nil => simp at h2
    | cons c cs =>
      simp only [List.map_cons, List.cons.injEq, List.map_eq_nil_iff] at h2
      rw [classify_dot] at h2
      rw [h2.1, h2.2]
  subst hm2
  have hd : (m1 ++ ['.']).dropLast = m1 := by simp
  rw [hd]
  refine ⟨?_, ?_, rfl⟩
  · intro h0; subst h0; apply hne; simpa using h1.symm
  · intro c hc
    rw [← classify_ldh]
    apply hl
    rw [← h1]
    exact List.mem_map_of_mem _ hc

/-- The pattern of `isValidDomain` matches exactly the domain-shaped texts. -/
theorem MatchString_domainRegex (s : String) :
    MatchString domainRegex s = true ↔ DomainShape s.data := by
  unfold MatchString
  rw [RegularExpression.rmatch_iff_matches', domainRegex_matches]
  constructor
  · rintro ⟨Ls, F, hne, hLs, hF, heq⟩
    obtain ⟨ss, sf, hs, h1, h2⟩ := map_eq_flatten_append classify Ls s.data F heq
    have hss : ∀ m ∈ ss, m.map classify ∈ rxLabelDot.matches' := by
      intro m hm
      apply hLs
      rw [← h1]
      exact List.mem_map_of_mem _ hm
    refine ⟨ss.map List.dropLast, sf, ?_, ?_, ?_, ?_, ?_⟩
    · intro h0
      apply hne
      rw [← h1]
      simpa using h0
    · intro l hl
      rw [List.mem_map] at hl
      obtain ⟨m, hm, rfl⟩ := hl
      exact ⟨(labelDot_pullback m (hss m hm)).1, (labelDot_pullback m (hss m hm)).2.1⟩
    · rw [rxTLD_matches] at hF
      rw [← h2] at hF
      simpa using hF.1
    · rw [rxTLD_matches] at hF
      intro c hc
      rw [← classify_alpha]
      apply hF.2
      rw [← h2]
      exact List.mem_map_of_mem _ hc
    · rw [hs, List.map_map]
      congr 2
      have : ∀ m ∈ ss, ((fun l => l ++ ['.']) ∘ List.dropLast) m = id m := by
        intro m hm
        exact (labelDot_pullback m (hss m hm)).2.2.symm
      rw [List.map_congr_left this, List.map_id]
  · rintro ⟨labels, final, hne, hl, hlen, hf, heq⟩
    refine ⟨labels.map (fun l => l.map classify ++ [CharClass.dot]), final.map classify,
      ?_, ?_, ?_, ?_⟩
    · simpa using hne
    · intro y hy
      rw [List.mem_map] at hy
      obtain ⟨l, hlm, rfl⟩ := hy
      rw [rxLabelDot_matches]
      refine ⟨l.map classify, ?_, ?_, rfl⟩
      · simpa using (hl l hlm).1
      · intro a ha
        rw [List.mem_map] at ha
        obtain ⟨c, hc, rfl⟩ := ha
        exact (classify_ldh c).2 ((hl l hlm).2 c hc)
    · rw [rxTLD_matches]
      refine ⟨by simpa using hlen, ?_⟩
      intro a ha
      rw [List.mem_map] at ha
      obtain ⟨c, hc, rfl⟩ := ha
      exact (classify_alpha c).2 (hf c hc)
    · rw [heq, List.map_append, List.map_flatten, List.map_map]
      congr 2
      apply List.map_congr_left
      intro l _
      simp [(classify_dot '.').2 rfl]

/-- Source `isValidDomain`, characterised: a domain-shaped text of at most 253
characters. -/
theorem isValidDomain_iff (s : String) :
    isValidDomain s = true ↔ DomainShape s.data ∧ s.length ≤ 253 := by
  unfold isValidDomain
  rw [Bool.and_eq_true, MatchString_domainRegex, decide_eq_true_eq]
  constructor
  · rintro ⟨h1, h2⟩
    exact ⟨h1, le_trans (length_le_len s) h2⟩
  · rintro ⟨h1, h2⟩
    refine ⟨h1, ?_⟩
    rw [len_ascii s (DomainShape_ascii _ h1)]
    exact h2

/-! ## IPv4 literals -/

theorem decValueFrom_append (n : Nat) (a b : List Char) :
    decValueFrom n (a ++ b) = decValueFrom (decValueFrom n a) b := by
  simp [decValueFrom, List.foldl_append]

theorem decValueFrom_snoc (a : List Char) (c : Char) :
    decValueFrom 0 (a ++ [c]) = decValueFrom 0 a * 10 + digitVal c := by
  rw [decValueFrom_append]; rfl

theorem isDigit_dot : isDigit '.' = false := by decide

theorem eq_zero_char (d : Char) (h1 : isDigit d = true) (h2 : digitVal d = 0) : d = '0' := by
  rw [isDigit_iff] at h1
  have h3 : d.toNat = 48 := by
    have : digitVal d = d.toNat - 48 := rfl
    omega
  rw [← Char.ofNat_toNat d, h3]

theorem canonOctet_nil : canonOctet [] = false := by decide

theorem decimalOctet_digits (f : List Char) (h : decimalOctet f = true) :
    f ≠ [] ∧ f.all isDigit = true ∧ decValueFrom 0 f ≤ 255 := by
  unfold decimalOctet at h
  simp only [Bool.and_eq_true, Bool.not_eq_true', List.isEmpty_eq_false, decide_eq_true_eq] at h
  exact ⟨h.1.1, h.1.2, h.2⟩

theorem canonOctet_digits (f : List Char) (h : canonOctet f = true) :
    f ≠ [] ∧ f.all isDigit = true ∧ decValueFrom 0 f ≤ 255 := by
  unfold canonOctet at h
  rw [Bool.and_eq_true] at h
  exact decimalOctet_digits f h.1

theorem canonOctet_of_ok (cur : List Char) (hne : cur ≠ []) (hd : cur.all isDigit = true)
    (hv : decValueFrom 0 cur ≤ 255) (hz : 2 ≤ cur.length → cur.head? ≠ some '0') :
    canonOctet cur = true := by
  unfold canonOctet decimalOctet
  have h1 : cur.isEmpty = false := by simpa using hne
  rw [h1, hd]
  simp only [Bool.not_false, Bool.and_self, Bool.true_and, decide_eq_true hv, Bool.or_eq_true,
    decide_eq_true_eq, bne_iff_ne, ne_eq]
  by_cases h : cur.length ≤ 1
  · exact Or.inl h
  · exact Or.inr (hz (by omega))

theorem canonOctet_false_of_gt (f : List Char) (h : 255 < decValueFrom 0 f) :
    canonOctet f = false := by
  by_contra hc
  have := (canonOctet_digits f (by simpa using hc)).2.2
  omega

theorem canonOctet_false_of_zero (c : Char) (more : List Char) :
    canonOctet ('0' :: c :: more) = false := by
  unfold canonOctet
  simp

theorem canonOctet_false_of_nondigit (f : List Char) (c : Char) (hc : c ∈ f)
    (hnd : isDigit c = false) : canonOctet f = false := by
  by_contra h
  have := (canonOctet_digits f (by simpa using h)).2.1
  rw [List.all_eq_true] at this
  rw [this c hc] at hnd
  cases hnd

theorem takeWhile_digits_append (cur rest : List Char) (h : cur.all isDigit = true) :
    (cur ++ rest).takeWhile isDigit = cur ++ rest.takeWhile isDigit := by
  induction cur with
  | nil => rfl
  | cons a as ih =>
    simp only [List.all_cons, Bool.and_eq_true] at h
    simp [List.takeWhile, h.1, ih h.2]

theorem dropWhile_digits_append (cur rest : List Char) (h : cur.all isDigit = true) :
    (cur ++ rest).dropWhile isDigit = rest.dropWhile isDigit := by
  induction cur with
  | nil => rfl
  | cons a as ih =>
    simp only [List.all_cons, Bool.and_eq_true] at h
    simp [List.dropWhile, h.1, ih h.2]

theorem parseIPv4Loop_iff (rest : List Char) :
    ∀ (cur : List Char) (prev : Option Char) (pos : Nat),
      cur.all isDigit = true → decValueFrom 0 cur ≤ 255 →
      (2 ≤ cur.length → cur.head? ≠ some '0') →
      (cur = [] → (prev = none ∧ pos = 0) ∨ (prev = some '.' ∧ rest ≠ [])) →
      (cur ≠ [] → prev ≠ none ∧ prev ≠ some '.') →
      pos ≤ 3 →
      (parseIPv4Loop rest prev (decValueFrom 0 cur) pos cur.length = true ↔
        dottedFrom canonOctet (3 - pos) (cur ++ rest) = true) := by
  induction rest with
  | nil =>
    intro cur prev pos hd hv hz hnil _ hpos
    rw [List.append_nil]
    have htw : cur.takeWhile isDigit = cur := by
      have := takeWhile_digits_append cur [] hd
      simpa using this
    have hdw : cur.dropWhile isDigit = [] := by
      have := dropWhile_digits_append cur [] hd
      simpa using this
    by_cases hp : pos < 3
    · obtain ⟨k, hk⟩ : ∃ k, 3 - pos = k + 1 := ⟨2 - pos, by omega⟩
      rw [hk]
      simp [parseIPv4Loop, dottedFrom, hp, hdw]
    · have hp3 : 3 - pos = 0 := by omega
      rw [hp3]
      have hne : cur ≠ [] := by
        intro h0
        rcases hnil h0 with ⟨_, h⟩ | ⟨_, h⟩
        · omega
        · exact h rfl
      simp [parseIPv4Loop, dottedFrom, hp, htw, hdw, canonOctet_of_ok cur hne hd hv hz]
  | cons c cs ih =>
    intro cur prev pos hd hv hz hnil hcons hpos
    by_cases hc : isDigit c = true
    · -- a digit extends the current field
      have hfield : (cur ++ c :: cs).takeWhile isDigit = cur ++ c :: cs.takeWhile isDigit := by
        rw [takeWhile_digits_append cur _ hd]
        simp [List.takeWhile, hc]
      have hval : decValueFrom 0 (cur ++ c :: cs.takeWhile isDigit)
          = decValueFrom (decValueFrom 0 cur * 10 + digitVal c) (cs.takeWhile isDigit) := by
        rw [decValueFrom_append]; rfl
      have hfalse : ∀ k, canonOctet (cur ++ c :: cs.takeWhile isDigit) = false →
          dottedFrom canonOctet k (cur ++ c :: cs) = false := by
        intro k hk
        cases k <;> simp [dottedFrom, hfield, hk]
      by_cases hlead : cur.length = 1 ∧ decValueFrom 0 cur = 0
      · have hcur : cur = ['0'] := by
          rcases cur with _ | ⟨d, _ | ⟨e, es⟩⟩
          · simp at hlead
          · have hd1 : isDigit d = true := by simpa using hd
            have hv0 : digitVal d = 0 := by
              have := hlead.2
              simpa [decValueFrom] using this
            rw [eq_zero_char d hd1 hv0]
          · simp at hlead
        subst hcur
        have : canonOctet (['0'] ++ c :: cs.takeWhile isDigit) = false :=
          canonOctet_false_of_zero c _
        rw [hfalse _ this]
        have h0 : decValueFrom 0 ['0'] = 0 := by decide
        simp [parseIPv4Loop, hc, h0]
      · by_cases hbig : decValueFrom 0 cur * 10 + digitVal c > 255
        · have : canonOctet (cur ++ c :: cs.takeWhile isDigit) = false := by
            apply canonOctet_false_of_gt
            rw [hval]
            have := decValueFrom_ge (cs.takeWhile isDigit) (decValueFrom 0 cur * 10 + digitVal c)
            omega
          rw [hfalse _ this]
          simp [parseIPv4Loop, hc, hlead, hbig]
        · have hstep : parseIPv4Loop (c :: cs) prev (decValueFrom 0 cur) pos cur.length
              = parseIPv4Loop cs (some c) (decValueFrom 0 (cur ++ [c])) pos (cur ++ [c]).length := by
            rw [decValueFrom_snoc]
            simp [parseIPv4Loop, hc, hlead, hbig]
          have happ : cur ++ c :: cs = (cur ++ [c]) ++ cs := by simp
          rw [hstep, happ]
          apply ih (cur ++ [c]) (some c) pos
          · simp [hd, hc]
          · rw [decValueFrom_snoc]; omega
          · intro hlen
            rcases cur with _ | ⟨d, _ | ⟨e, es⟩⟩
            · simp at hlen
            · have hd1 : isDigit d = true := by simpa using hd
              simp only [List.singleton_append, List.head?_cons, ne_eq, Option.some.injEq]
              intro hd0
              subst hd0
              apply hlead
              exact ⟨rfl, by decide⟩
            · have := hz (by simp)
              simpa using this
          · intro h0; simp at h0
          · intro _
            refine ⟨by simp, ?_⟩
            intro h
            injection h with h
            subst h
            rw [isDigit_dot] at hc
            cases hc
          · exact hpos
    · have hcf : isDigit c = false := by simpa using hc
      have htw : (cur ++ c :: cs).takeWhile isDigit = cur := by
        rw [takeWhile_digits_append cur _ hd]
        simp [List.takeWhile, hcf]
      have hdw : (cur ++ c :: cs).dropWhile isDigit = c :: cs := by
        rw [dropWhile_digits_append cur _ hd]
        simp [List.dropWhile, hcf]
      by_cases hdot : c = '.'
      · subst hdot
        by_cases hcur : cur = []
        · -- an empty field before the dot
          subst hcur
          have hprev : prev = none ∨ prev = some '.' := by
            rcases hnil rfl with ⟨h, _⟩ | ⟨h, _⟩
            · exact Or.inl h
            · exact Or.inr h
          simp only [List.nil_append] at htw hdw ⊢
          have : ∀ k, dottedFrom canonOctet k ('.' :: cs) = false := by
            intro k
            cases k <;> simp [dottedFrom, htw, canonOctet_nil]
          rw [this]
          rcases hprev with h | h <;> simp [parseIPv4Loop, isDigit_dot, h]
        · have hp := hcons hcur
          have hcanon := canonOctet_of_ok cur hcur hd hv hz
          by_cases hcs : cs = []
          · subst hcs
            have : ∀ k, dottedFrom canonOctet k (cur ++ ['.']) = false := by
              intro k
              cases k with
              | zero => simp [dottedFrom, hdw]
              | succ k =>
                cases k <;> simp [dottedFrom, hdw, canonOctet_nil]
            rw [this]
            simp [parseIPv4Loop, isDigit_dot]
          · by_cases hp3 : pos = 3
            · subst hp3
              simp [parseIPv4Loop, isDigit_dot, dottedFrom, hdw]
            · obtain ⟨k, hk⟩ : ∃ k, 3 - pos = k + 1 := ⟨2 - pos, by omega⟩
              have hk2 : 3 - (pos + 1) = k := by omega
              have hih := ih [] (some '.') (pos + 1) (by simp) (by simp [decValueFrom])
                (by simp) (fun _ => Or.inr ⟨rfl, hcs⟩) (fun h => absurd rfl h) (by omega)
              rw [hk2] at hih
              have hl : parseIPv4Loop ('.' :: cs) prev (decValueFrom 0 cur) pos cur.length
                  = parseIPv4Loop cs (some '.') 0 (pos + 1) 0 := by
                have hcs2 : cs.isEmpty = false := by simpa using hcs
                simp [parseIPv4Loop, isDigit_dot, hp.1, hp.2, hcs2, hp3]
              rw [hl, hk]
              have hr : dottedFrom canonOctet (k + 1) (cur ++ '.' :: cs)
                  = dottedFrom canonOctet k cs := by
                simp [dottedFrom, htw, hdw, hcanon]
              rw [hr]
              simpa [decValueFrom] using hih
      · have : ∀ k, dottedFrom canonOctet k (cur ++ c :: cs) = false := by
          intro k
          cases k <;> simp [dottedFrom, hdw, hdot]
        rw [this]
        simp [parseIPv4Loop, hcf, hdot]

theorem parseIPv4_iff_dottedFrom (s : String) :
    parseIPv4 s = true ↔ dottedFrom canonOctet 3 s.data = true := by
  have := parseIPv4Loop_iff s.data [] none 0 (by simp) (by simp [decValueFrom]) (by simp)
    (fun _ => Or.inl ⟨rfl, rfl⟩) (fun h => absurd rfl h) (by omega)
  simpa [parseIPv4, decValueFrom] using this

theorem takeWhile_digits_self (f : List Char) (h : f.all isDigit = true) :
    f.takeWhile isDigit = f := by
  simpa using takeWhile_digits_append f [] h

theorem dropWhile_digits_self (f : List Char) (h : f.all isDigit = true) :
    f.dropWhile isDigit = [] := by
  simpa using dropWhile_digits_append f [] h

theorem dottedFrom_zero_iff (p : List Char → Bool)
    (hp : ∀ f, p f = true → f.all isDigit = true) (s : List Char) :
    dottedFrom p 0 s = true ↔ p s = true := by
  unfold dottedFrom
  rw [Bool.and_eq_true, List.isEmpty_iff]
  constructor
  · rintro ⟨h1, h2⟩
    have := List.takeWhile_append_dropWhile isDigit s
    rw [h2, List.append_nil] at this
    rw [← this]; exact h1
  · intro h
    rw [takeWhile_digits_self s (hp s h), dropWhile_digits_self s (hp s h)]
    exact ⟨h, rfl⟩

theorem dottedFrom_succ_iff (p : List Char → Bool)
    (hp : ∀ f, p f = true → f.all isDigit = true) (k : Nat) (s : List Char) :
    dottedFrom p (k + 1) s = true ↔
      ∃ a r, p a = true ∧ s = a ++ '.' :: r ∧ dottedFrom p k r = true := by
  constructor
  · intro h
    unfold dottedFrom at h
    rw [Bool.and_eq_true] at h
    obtain ⟨h1, h2⟩ := h
    have hs := List.takeWhile_append_dropWhile isDigit s
    cases hdw : s.dropWhile isDigit with
    | nil => rw [hdw] at h2; simp at h2
    | cons c r =>
      rw [hdw] at h2 hs
      simp only [Bool.and_eq_true, decide_eq_true_eq] at h2
      obtain ⟨rfl, h3⟩ := h2
      exact ⟨s.takeWhile isDigit, r, h1, hs.symm, h3⟩
  · rintro ⟨a, r, ha, rfl, hr⟩
    have hda := hp a ha
    have htw : (a ++ '.' :: r).takeWhile isDigit = a := by
      rw [takeWhile_digits_append a _ hda]
      simp [List.takeWhile, isDigit_dot]
    have hdw : (a ++ '.' :: r).dropWhile isDigit = '.' :: r := by
      rw [dropWhile_digits_append a _ hda]
      simp [List.dropWhile, isDigit_dot]
    unfold dottedFrom
    rw [htw, hdw]
    simp [ha, hr]

theorem dottedFrom_three_iff (p : List Char → Bool)
    (hp : ∀ f, p f = true → f.all isDigit = true) (s : List Char) :
    dottedFrom p 3 s = true ↔ DottedQuad p s := by
  rw [dottedFrom_succ_iff p hp]
  constructor
  · rintro ⟨a, r1, ha, rfl, h1⟩
    rw [dottedFrom_succ_iff p hp] at h1
    obtain ⟨b, r2, hb, rfl, h2⟩ := h1
    rw [dottedFrom_succ_iff p hp] at h2
    obtain ⟨c, d, hc, rfl, h3⟩ := h2
    rw [dottedFrom_zero_iff p hp] at h3
    exact ⟨a, b, c, d, ha, hb, hc, h3, rfl⟩
  · rintro ⟨a, b, c, d, ha, hb, hc, hd, rfl⟩
    refine ⟨a, _, ha, rfl, ?_⟩
    rw [dottedFrom_succ_iff p hp]
    refine ⟨b, _, hb, rfl, ?_⟩
    rw [dottedFrom_succ_iff p hp]
    refine ⟨c, _, hc, rfl, ?_⟩
    rw [dottedFrom_zero_iff p hp]
    exact hd

/-- The IPv4 reader accepts exactly the four dot-separated decimal octets written
without leading zeros. -/
theorem parseIPv4_iff (s : String) : parseIPv4 s = true ↔ DottedQuad canonOctet s.data := by
  rw [parseIPv4_iff_dottedFrom,
    dottedFrom_three_iff canonOctet (fun f h => (canonOctet_digits f h).2.1)]

theorem DottedQuad_chars (p : List Char → Bool)
    (hp : ∀ f, p f = true → f.all isDigit = true) (s : List Char) (h : DottedQuad p s) :
    '.' ∈ s ∧ ∀ x ∈ s, isDigit x = true ∨ x = '.' := by
  obtain ⟨a, b, c, d, ha, hb, hc, hd, rfl⟩ := h
  refine ⟨by simp, ?_⟩
  have ha1 := List.all_eq_true.1 (hp a ha)
  have hb1 := List.all_eq_true.1 (hp b hb)
  have hc1 := List.all_eq_true.1 (hp c hc)
  have hd1 := List.all_eq_true.1 (hp d hd)
  intro x hx
  simp only [List.mem_append, List.mem_cons] at hx
  rcases hx with hx | hx | hx | hx | hx | hx | hx
  · exact Or.inl (ha1 x hx)
  · exact Or.inr hx
  · exact Or.inl (hb1 x hx)
  · exact Or.inr hx
  · exact Or.inl (hc1 x hx)
  · exact Or.inr hx
  · exact Or.inl (hd1 x hx)

theorem isDigit_ne_colon (x : Char) (h : isDigit x = true) : x ≠ ':' := by
  intro hx; subst hx; revert h; decide

theorem isDigit_ne_percent (x : Char) (h : isDigit x = true) : x ≠ '%' := by
  intro hx; subst hx; revert h; decide

theorem DottedQuad_no_colon (p : List Char → Bool)
    (hp : ∀ f, p f = true → f.all isDigit = true) (s : List Char) (h : DottedQuad p s) :
    ':' ∉ s := by
  intro hmem
  rcases (DottedQuad_chars p hp s h).2 ':' hmem with h1 | h1
  · exact isDigit_ne_colon _ h1 rfl
  · revert h1; decide

/-- Source `isValidIPv4`, characterised: whatever the IPv6 reader does, the accepted
texts are the four dot-separated decimal octets without leading zeros. -/
theorem isValidIPv4_iff (parseIPv6 : String → Bool) (s : String) :
    isValidIPv4 parseIPv6 s = true ↔ DottedQuad canonOctet s.data := by
  have hp : ∀ f, canonOctet f = true → f.all isDigit = true :=
    fun f h => (canonOctet_digits f h).2.1
  unfold isValidIPv4 ParseIP
  rw [Bool.and_eq_true, decide_eq_true_eq]
  constructor
  · rintro ⟨h1, h2⟩
    cases hf : s.data.find? (fun c => c = '.' || c = ':' || c = '%') with
    | none => rw [hf] at h1; simp at h1
    | some c =>
      rw [hf] at h1
      simp only at h1
      by_cases hc : c = '.'
      · rw [if_pos hc] at h1
        exact (parseIPv4_iff s).1 h1
      · rw [if_neg hc] at h1
        by_cases hc2 : c = ':'
        · subst hc2
          have hmem : ':' ∈ s.data := List.mem_of_find?_eq_some hf
          have : 0 < Count s ':' := List.count_pos_iff.2 hmem
          omega
        · rw [if_neg hc2] at h1
          cases h1
  · intro h
    obtain ⟨hdot, hchars⟩ := DottedQuad_chars canonOctet hp s.data h
    have hcount : Count s ':' = 0 :=
      List.count_eq_zero.2 (DottedQuad_no_colon canonOctet hp s.data h)
    refine ⟨?_, by omega⟩
    cases hf : s.data.find? (fun c => c = '.' || c = ':' || c = '%') with
    | none =>
      have := List.find?_eq_none.1 hf '.' hdot
      simp at this
    | some c =>
      have hmem : c ∈ s.data := List.mem_of_find?_eq_some hf
      have hpc := List.find?_some hf
      have hc : c = '.' := by
        rcases hchars c hmem with h1 | h1
        · have := isDigit_ne_colon c h1
          have := isDigit_ne_percent c h1
          have hd : c ≠ '.' := by
            intro hx; subst hx; rw [isDigit_dot] at h1; cases h1
          simp_all
        · exact h1
      simp only [hc, if_true]
      exact (parseIPv4_iff s).2 h

theorem ne_empty_iff (s : String) : (s != "") = true ↔ s ≠ "" := by simp

/-- Source `validateTarget`, characterised. -/
theorem validateTarget_iff (parseIPv6 : String → Bool) (s : String) :
    validateTarget parseIPv6 s = true ↔
      s ≠ "" ∧ (DottedQuad canonOctet s.data ∨ (DomainShape s.data ∧ s.length ≤ 253)) := by
  unfold validateTarget
  rw [Bool.and_eq_true, Bool.or_eq_true, ne_empty_iff, isValidIPv4_iff, isValidDomain_iff]

theorem canonOctet_length (f : List Char) (h : canonOctet f = true) : f.length ≤ 3 := by
  have hd := canonOctet_digits f h
  unfold canonOctet at h
  simp only [Bool.and_eq_true, Bool.or_eq_true, decide_eq_true_eq, bne_iff_ne, ne_eq] at h
  rcases f with _ | ⟨d1, _ | ⟨d2, _ | ⟨d3, _ | ⟨d4, rest⟩⟩⟩⟩
  · simp
  · simp
  · simp
  · simp
  · exfalso
    rcases h.2 with h2 | h2
    · simp at h2
    · have hall := hd.2.1
      simp only [List.all_cons, Bool.and_eq_true] at hall
      have h1 : digitVal d1 ≠ 0 := by
        intro h0
        apply h2
        rw [eq_zero_char d1 hall.1 h0]
        rfl
      have hv := hd.2.2
      have hsplit : decValueFrom 0 (d1 :: d2 :: d3 :: d4 :: rest)
          = decValueFrom (((digitVal d1 * 10 + digitVal d2) * 10 + digitVal d3) * 10 + digitVal d4)
              rest := by
        simp [decValueFrom]
      rw [hsplit] at hv
      have := decValueFrom_ge rest
        (((digitVal d1 * 10 + digitVal d2) * 10 + digitVal d3) * 10 + digitVal d4)
      omega

theorem DottedQuad_canon_length (s : List Char) (h : DottedQuad canonOctet s) :
    s.length ≤ 15 := by
  obtain ⟨a, b, c, d, ha, hb, hc, hd, rfl⟩ := h
  have := canonOctet_length a ha
  have := canonOctet_length b hb
  have := canonOctet_length c hc
  have := canonOctet_length d hd
  simp only [List.length_append, List.length_cons]
  omega

/-- C1 as stated fails: `01.2.3.4` is four dot-separated decimal octets, each from 0
to 255, without a colon, and `validateTarget` rejects it (the IPv4 reader refuses the
leading zero, and the text is not domain-shaped), even with an IPv6 reader that
accepts everything. -/
theorem validateTarget_leading_zero_counterexample :
    ClaimedTarget "01.2.3.4" ∧ validateTarget (fun _ => true) "01.2.3.4" = false :=
  ⟨⟨by decide, Or.inl ⟨⟨['0', '1'], ['2'], ['3'], ['4'], by decide, by decide, by decide,
    by decide, rfl⟩, by decide⟩⟩, by decide⟩

/-- C1 amended: for every text `s`, `validateTarget s` is true exactly when `s` is
non-empty and either (a) `s` is four dot-separated decimal octets, each from 0 to 255
and written without a leading zero, and contains no colon, or (b) `s` has at most 253
characters and consists of one or more labels of letters, digits and hyphens, each
followed by a dot, then a final label of at least two letters.  The empty text is
rejected. -/
theorem validateTarget_spec (parseIPv6 : String → Bool) (s : String) :
    (validateTarget parseIPv6 s = true ↔
      s ≠ "" ∧ ((DottedQuad canonOctet s.data ∧ ':' ∉ s.data) ∨
        (s.length ≤ 253 ∧ DomainShape s.data))) ∧
    validateTarget parseIPv6 "" = false := by
  refine ⟨?_, rfl⟩
  rw [validateTarget_iff]
  constructor
  · rintro ⟨h0, h | h⟩
    · exact ⟨h0, Or.inl ⟨h, DottedQuad_no_colon canonOctet
        (fun f hf => (canonOctet_digits f hf).2.1) s.data h⟩⟩
    · exact ⟨h0, Or.inr ⟨h.2, h.1⟩⟩
  · rintro ⟨h0, h | h⟩
    · exact ⟨h0, Or.inl h.1⟩
    · exact ⟨h0, Or.inr ⟨h.2, h.1⟩⟩

/-- C8 as stated fails in its second half: `192.168.001.1` is four dot-separated
octets, each from 0 to 255, and `validateTarget` rejects it. -/
theorem validateTarget_ipv4_counterexample :
    DottedQuad decimalOctet "192.168.001.1".data ∧
      validateTarget (fun _ => true) "192.168.001.1" = false :=
  ⟨⟨['1', '9', '2'], ['1', '6', '8'], ['0', '0', '1'], ['1'], by decide, by decide, by decide,
    by decide, rfl⟩, by decide⟩

/-- C8 amended: every text longer than 253 characters is rejected by `validateTarget`,
whatever its shape; and every text of four dot-separated decimal octets, each from 0
to 255 and written without a leading zero, is accepted. -/
theorem validateTarget_length_and_ipv4 (parseIPv6 : String → Bool) (s : String) :
    (253 < s.length → validateTarget parseIPv6 s = false) ∧
    (DottedQuad canonOctet s.data → validateTarget parseIPv6 s = true) := by
  refine ⟨?_, ?_⟩
  · intro hlen
    by_contra h
    have h1 : validateTarget parseIPv6 s = true := by simpa using h
    rw [validateTarget_iff] at h1
    rcases h1.2 with h2 | h2
    · have := DottedQuad_canon_length s.data h2
      have hl : s.length = s.data.length := rfl
      omega
    · omega
  · intro h
    rw [validateTarget_iff]
    refine ⟨?_, Or.inl h⟩
    intro h0
    subst h0
    obtain ⟨a, b, c, d, _, _, _, _, heq⟩ := h
    have : ("" : String).data = [] := rfl
    rw [this] at heq
    simp at heq

/-- C8 amended, at a domain-shaped text of 254 characters (rejected) and at the IPv4
literal `8.8.8.8` (accepted). -/
theorem validateTarget_length_and_ipv4_witness :
    validateTarget (fun _ => false) ⟨List.replicate 250 'a' ++ ['.', 'c', 'o', 'm']⟩ = false ∧
    validateTarget (fun _ => false) "8.8.8.8" = true :=
  ⟨(validateTarget_length_and_ipv4 (fun _ => false)
      ⟨List.replicate 250 'a' ++ ['.', 'c', 'o', 'm']⟩).1
      (by rw [String.length, List.length_append, List.length_replicate]; decide),
   (validateTarget_length_and_ipv4 (fun _ => false) "8.8.8.8").2
      ⟨['8'], ['8'], ['8'], ['8'], by decide, by decide, by decide, by decide, rfl⟩⟩

/-! ## The handlers' response bodies -/

theorem scan_nil_or_nonempty (parser : String → ParseResult) (lines : List String) :
    ∀ results : Option (List Event),
      (results = none ∨ ∃ l, results = some l ∧ l ≠ []) →
      (lines.foldl (bufferedStep parser) results = none ∨
        ∃ l, lines.foldl (bufferedStep parser) results = some l ∧ l ≠ []) := by
  induction lines with
  | nil => intro results h; simpa using h
  | cons line ls ih =>
    intro results h
    rw [List.foldl_cons]
    apply ih
    unfold bufferedStep
    rcases parser line with e | (_ | out)
    · exact h
    · exact h
    · right
      exact ⟨results.getD [] ++ [out], rfl, by simp⟩

/-- In non-streaming mode, for a valid target and a run that succeeds without any
line yielding an event, both handlers append `null` and a newline to the body. -/
theorem handle_no_events_body (parseIPv6 : String → Bool) (parser : String → ParseResult)
    (marshal : Event → Option String) (target streaming : String) (cmd : Cmd)
    (streamed : String) (w : ResponseWriter)
    (hv : validateTarget parseIPv6 target = true) (hs : streaming ≠ "true")
    (h1 : cmd.stdoutPipeErr = none) (h2 : cmd.startErr = none) (h3 : cmd.waitErr = none)
    (hnone : parsedEvents parser cmd.stdoutLines = []) :
    (handle parseIPv6 parser marshal target streaming cmd streamed w).body
      = w.body ++ "null\n" := by
  have hscan : cmd.stdoutLines.foldl (bufferedStep parser) none = none := by
    rcases scan_nil_or_nonempty parser cmd.stdoutLines none (Or.inl rfl) with h | ⟨l, hl, hne⟩
    · exact h
    · exfalso
      have := sliceElems_scan parser cmd.stdoutLines none
      rw [hl, hnone] at this
      simp [sliceElems] at this
      exact hne this
  simp [handle, hv, hs, runCommandBuffered, h1, h2, h3, hscan, encodeResults, Write, WriteHeader,
    setHeader]

/-- C9, the code at the failing input: a valid target, non-streaming mode, and a run
that exits cleanly after no output, or after only ignored lines.  The body written
by `mtrHandler` and by `pingHandler` is `null`, not the empty JSON array. -/
theorem handlers_empty_result_body :
    (mtrHandler (fun _ => false) (fun _ => none) "example.com" ""
      (fun _ => ⟨none, none, none, [], none⟩) "" ⟨[], none, "", true⟩).body = "null\n" ∧
    (mtrHandler (fun _ => false) (fun _ => none) "example.com" ""
      (fun _ => ⟨none, none, none, ["q unknown"], none⟩) "" ⟨[], none, "", true⟩).body
      = "null\n" ∧
    (pingHandler (fun _ => false) exampleParseFloat (fun _ => none) "example.com" ""
      (fun _ => ⟨none, none, none, ["PING example.com (93.184.216.34): 56 data bytes"], none⟩)
      "" ⟨[], none, "", true⟩).body = "null\n" := by
  decide

/-- C10, the code at the failing input: a valid target and a command whose start
fails because the binary is missing.  The body of the 500 response repeats the
message without escaping its double quotes, so it is not a JSON object with an
`error` member; the encoder used for the 400 response would have produced one that
reads back as the message. -/
theorem handlers_error_body_unescaped :
    (mtrHandler (fun _ => false) (fun _ => none) "example.com" ""
      (fun _ => ⟨none, none, some "exec: \"mtr\": executable file not found in $PATH", [], none⟩)
      "" ⟨[], none, "", true⟩)
      = ⟨[("X-Content-Type-Options", "nosniff"), ("Content-Type", "text/plain; charset=utf-8")],
          some 500,
          "\x7b\"error\":\"exec: \"mtr\": executable file not found in $PATH\"\x7d\n", true⟩ ∧
    (pingHandler (fun _ => false) exampleParseFloat (fun _ => none) "example.com" ""
      (fun _ => ⟨none, none, some "exec: \"ping\": executable file not found in $PATH", [],
        none⟩)
      "" ⟨[], none, "", true⟩).body
      = "\x7b\"error\":\"exec: \"ping\": executable file not found in $PATH\"\x7d\n" ∧
    errorObjectMessage
      "\x7b\"error\":\"exec: \"mtr\": executable file not found in $PATH\"\x7d\n" = none ∧
    errorObjectMessage
      "\x7b\"error\":\"exec: \"ping\": executable file not found in $PATH\"\x7d\n" = none ∧
    errorObjectMessage (encodeErrorMap "exec: \"mtr\": executable file not found in $PATH")
      = some "exec: \"mtr\": executable file not found in $PATH" := by
  decide

end LookingGlass
